import Mathlib

/-!
# Verification of the GTD-Obsidian timeline engine

Shallow embedding, in Lean 4, of the temporal layout engine of the
GTD-Obsidian repository, together with theorems settling the claims of the
specification against it.

Conventions of the embedding:

* A JavaScript `Date` is modelled as an `Int`: milliseconds since the epoch,
  in a fixed timezone whose offset is a whole number of hours (so taking the
  model to be UTC loses no generality for the minute-of-hour arithmetic the
  engine performs).  `getMinutes`, `getHours`, `setMinutes` become integer
  divisions with positive divisors; Lean's `Int` `/` and `%` are Euclidean
  (floor for positive divisors), which matches calendar arithmetic also for
  negative timestamps.
* JavaScript strings are Lean `String`s; the handful of regular expressions
  the engine uses are embedded as explicit matching functions on `List Char`
  that implement the exact backtracking behaviour of those patterns.
* Fractional pixel / percentage arithmetic is modelled in `ℚ` (exact real
  semantics of the formulas; every discrepancy established below is far
  larger than any binary floating-point rounding).
* Fallible operations return `Option`; all functions are total, so the
  "never throws" part of the error-handling contract is inherent.
-/

namespace GTDSpec

/-- Milliseconds in one minute. -/
def msPerMin : Int := 60000

/-- Milliseconds in one hour. -/
def msPerHour : Int := 3600000

/-- Milliseconds in one day (`setDate(getDate() + 1)`, no DST in the model). -/
def msPerDay : Int := 86400000

/-- `Date.prototype.getMinutes` (minute of the hour, 0–59). -/
def getMinutesN (t : Int) : Nat := ((t / msPerMin) % 60).toNat

/-- `Date.prototype.getHours` (hour of the day, 0–23). -/
def getHoursN (t : Int) : Nat := ((t / msPerHour) % 24).toNat

/-- The instant at the start of `t`'s hour (what `setMinutes(m, 0, 0)` keeps). -/
def floorToHour (t : Int) : Int := t - t % msPerHour

/-- Whitespace for the purposes of `trim` and `\s`. -/
def isSpaceChar (c : Char) : Bool := c = ' ' ∨ c = '\t' ∨ c = '\n' ∨ c = '\r'

/-- `String.prototype.trim` on a character list. -/
def jsTrimList (l : List Char) : List Char :=
  ((l.dropWhile isSpaceChar).reverse.dropWhile isSpaceChar).reverse

/-- Numeric value of a decimal digit character. -/
def digitVal (c : Char) : Nat := c.toNat - 48

/-- The decimal digit character for `d ≤ 9`. -/
def digitChar (d : Nat) : Char := Char.ofNat (48 + d)

/-- Value of a nonempty string of decimal digits (`parseInt`, base 10). -/
def decodeDigits (l : List Char) : Nat := l.foldl (fun acc c => 10 * acc + digitVal c) 0

/-- `/^(\d{1,2}):(\d{2})$/` — 24-hour time shape, returning (hours, minutes). -/
def match24 : List Char → Option (Nat × Nat)
  | [a, b, c, d] =>
    if a.isDigit ∧ b = ':' ∧ c.isDigit ∧ d.isDigit then
      some (digitVal a, 10 * digitVal c + digitVal d)
    else none
  | [a, b, c, d, e] =>
    if a.isDigit ∧ b.isDigit ∧ c = ':' ∧ d.isDigit ∧ e.isDigit then
      some (10 * digitVal a + digitVal b, 10 * digitVal d + digitVal e)
    else none
  | _ => none

/-- `/^(\d{1,2}):(\d{2})\s*(AM|PM|am|pm)$/i` — returns (hours, minutes, isPM). -/
def match12 (l : List Char) : Option (Nat × Nat × Bool) :=
  match l.reverse with
  | m :: p :: rest =>
    if (m = 'm' ∨ m = 'M') ∧ (p = 'a' ∨ p = 'A' ∨ p = 'p' ∨ p = 'P') then
      match match24 ((rest.dropWhile isSpaceChar).reverse) with
      | some (h, mi) => some (h, mi, p = 'p' ∨ p = 'P')
      | none => none
    else none
  | _ => none

/-- The five Chinese day-period prefixes of the Chinese time pattern. -/
inductive CnPeriod | am | pm | earlyMorning | noon | evening
deriving DecidableEq, Repr

/-- Strip an optional Chinese period prefix (`上午|下午|凌晨|中午|晚上`). -/
def stripCnPeriod : List Char → Option CnPeriod × List Char
  | '上' :: '午' :: rest => (some .am, rest)
  | '下' :: '午' :: rest => (some .pm, rest)
  | '凌' :: '晨' :: rest => (some .earlyMorning, rest)
  | '中' :: '午' :: rest => (some .noon, rest)
  | '晚' :: '上' :: rest => (some .evening, rest)
  | l => (none, l)

/-- `(\d{1,2})(点|时)(\d{1,2})?(分)?$` — the body of the Chinese time pattern,
applied after the optional period prefix; returns (raw hours, minutes). -/
def matchCnCore (l : List Char) : Option (Nat × Nat) :=
  let ds := l.takeWhile Char.isDigit
  let rest := l.dropWhile Char.isDigit
  if ds.length = 0 ∨ 2 < ds.length then none
  else
    match rest with
    | u :: rest2 =>
      if u = '点' ∨ u = '时' then
        let ds2 := rest2.takeWhile Char.isDigit
        let rest3 := rest2.dropWhile Char.isDigit
        if 2 < ds2.length then none
        else if rest3 = [] ∨ rest3 = ['分'] then some (decodeDigits ds, decodeDigits ds2)
        else none
      else none
    | [] => none

/-- `/^(\d{1,2})(点|时)$/` — the simplified Chinese shape. -/
def matchCnSimple : List Char → Option Nat
  | [a, u] => if a.isDigit ∧ (u = '点' ∨ u = '时') then some (digitVal a) else none
  | [a, b, u] =>
    if a.isDigit ∧ b.isDigit ∧ (u = '点' ∨ u = '时') then
      some (10 * digitVal a + digitVal b)
    else none
  | _ => none

/-- Period-dependent hour adjustment of `parseChineseTime`. -/
def cnAdjust (p : Option CnPeriod) (h : Nat) : Nat :=
  match p with
  | some .pm => if h < 12 then h + 12 else h
  | some .evening => if h < 12 then h + 12 else h
  | some .am => if h = 12 then 0 else h
  | some .earlyMorning => if h = 12 then 0 else h
  | _ => h

/-- `TimeParser.createTimeFromHourMinute`: today at `hours:minutes`, or `null`
when the hour or minute is out of range.  `today` is the midnight (more
precisely, the `(year, month, date)` part) of the wall clock at parse time. -/
def createTimeFromHourMinute (today : Int) (hours minutes : Nat) : Option Int :=
  if 23 < hours ∨ 59 < minutes then none
  else some (today + (hours : Int) * msPerHour + (minutes : Int) * msPerMin)

/-- `TimeParser.parseChineseTime` (both patterns, in source order). -/
def parseChineseTime (today : Int) (l : List Char) : Option Int :=
  let sp := stripCnPeriod l
  match matchCnCore sp.2 with
  | some (h, m) => createTimeFromHourMinute today (cnAdjust sp.1 h) m
  | none =>
    match matchCnSimple l with
    | some h => createTimeFromHourMinute today h 0
    | none => none

/-- Case-insensitive English duration unit word (`minutes?|hours?`);
`true` means hours. -/
def matchUnitWord (l : List Char) : Option Bool :=
  let low := l.map Char.toLower
  if low = "minute".toList ∨ low = "minutes".toList then some false
  else if low = "hour".toList ∨ low = "hours".toList then some true
  else none

/-- `/^in\s+(\d+)\s+(minutes?|hours?)$/i` — returns (amount, isHours). -/
def matchRelEn (l : List Char) : Option (Nat × Bool) :=
  match l with
  | i :: n :: c :: rest =>
    if i.toLower = 'i' ∧ n.toLower = 'n' ∧ isSpaceChar c then
      let r1 := (c :: rest).dropWhile isSpaceChar
      let ds := r1.takeWhile Char.isDigit
      let r2 := r1.dropWhile Char.isDigit
      if ds = [] then none
      else
        match r2 with
        | c2 :: r2' =>
          if isSpaceChar c2 then
            (matchUnitWord ((c2 :: r2').dropWhile isSpaceChar)).map fun b => (decodeDigits ds, b)
          else none
        | [] => none
    else none
  | _ => none

/-- `/^(\d+)(分钟|小时)后$/` — returns (amount, isHours). -/
def matchRelCn (l : List Char) : Option (Nat × Bool) :=
  let ds := l.takeWhile Char.isDigit
  let rest := l.dropWhile Char.isDigit
  if ds = [] then none
  else if rest = ['分', '钟', '后'] then some (decodeDigits ds, false)
  else if rest = ['小', '时', '后'] then some (decodeDigits ds, true)
  else none

/-- `TimeParser.parseRelativeTime`, resolved against the wall clock `now`. -/
def parseRelativeTime (now : Int) (l : List Char) : Option Int :=
  match matchRelEn l with
  | some (n, isH) => some (now + (n : Int) * (if isH then msPerHour else msPerMin))
  | none =>
    match matchRelCn l with
    | some (n, isH) => some (now + (n : Int) * (if isH then msPerHour else msPerMin))
    | none => none

/-- `TimeParser.parseTime` on an already trimmed character list.  Each matcher
is tried in source order; note that when the 24-hour or 12-hour *shape*
matches, the (possibly `null`) result of `createTimeFromHourMinute` is
returned without trying further rules, while a failed Chinese parse falls
through to the relative rules — exactly as in the source. -/
def parseTimeL (today now : Int) (l : List Char) : Option Int :=
  match match24 l with
  | some (h, m) => createTimeFromHourMinute today h m
  | none =>
    match match12 l with
    | some (h, m, pm) =>
      createTimeFromHourMinute today
        (if pm ∧ h ≠ 12 then h + 12 else if ¬pm ∧ h = 12 then 0 else h) m
    | none =>
      match parseChineseTime today l with
      | some d => some d
      | none => parseRelativeTime now l

/-- `TimeParser.parseTime` (the `!timeStr` guard plus `trim`). -/
def parseTime (today now : Int) (s : String) : Option Int :=
  if s = "" then none else parseTimeL today now (jsTrimList s.toList)

/-- `parseTime` as invoked on a captured (nonempty) group of `parseTaskTime`:
the group is re-trimmed by `parseTime` itself. -/
def parseTimeOfList (today now : Int) (l : List Char) : Option Int :=
  parseTimeL today now (jsTrimList l)

/-- The `TaskTimeInfo` record of the source. -/
structure TaskTimeInfo where
  startTime : Option Int := none
  endTime : Option Int := none
  duration : Option Int := none
  dueTime : Option Int := none
deriving DecidableEq, Repr

/-- `/^due:(.+)$/i`: strip a case-insensitive `due:` prefix with a nonempty
remainder. -/
def dueSplit : List Char → Option (List Char)
  | a :: b :: c :: d :: rest =>
    if a.toLower = 'd' ∧ b.toLower = 'u' ∧ c.toLower = 'e' ∧ d = ':' ∧ rest ≠ [] then
      some rest
    else none
  | _ => none

/-- Backtracking split of `/^@(.+?)-(.+)$/` after the `@`: the separator is the
first `-` with at least one character before it and one after it. -/
def rangeSplitGo (acc : List Char) : List Char → Option (List Char × List Char)
  | [] => none
  | c :: rest =>
    if c = '-' ∧ acc ≠ [] ∧ rest ≠ [] then some (acc.reverse, rest)
    else rangeSplitGo (c :: acc) rest

/-- `/^@(.+?)-(.+)$/`. -/
def rangeSplit : List Char → Option (List Char × List Char)
  | '@' :: rest => rangeSplitGo [] rest
  | _ => none

/-- `(\d+)(h|min|小时|分钟)$/i` — the suffix after the `+` of the duration
form; returns (amount, isHours). -/
def durSuffixMatch (l : List Char) : Option (Nat × Bool) :=
  let ds := l.takeWhile Char.isDigit
  let rest := l.dropWhile Char.isDigit
  if ds = [] then none
  else if rest = ['h'] ∨ rest = ['H'] then some (decodeDigits ds, true)
  else if rest.map Char.toLower = ['m', 'i', 'n'] then some (decodeDigits ds, false)
  else if rest = ['小', '时'] then some (decodeDigits ds, true)
  else if rest = ['分', '钟'] then some (decodeDigits ds, false)
  else none

/-- Backtracking split of `/^@(.+?)\+(\d+)(h|min|小时|分钟)$/i` after the `@`:
the lazy group grows until a `+` whose suffix matches is found. -/
def durSplitGo (acc : List Char) : List Char → Option (List Char × Nat × Bool)
  | [] => none
  | c :: rest =>
    if c = '+' ∧ acc ≠ [] then
      match durSuffixMatch rest with
      | some (n, isH) => some (acc.reverse, n, isH)
      | none => durSplitGo (c :: acc) rest
    else durSplitGo (c :: acc) rest

/-- `/^@(.+?)\+(\d+)(h|min|小时|分钟)$/i`. -/
def durSplit : List Char → Option (List Char × Nat × Bool)
  | '@' :: rest => durSplitGo [] rest
  | _ => none

/-- `TimeParser.parseTaskTime`.  Branch structure as in the source: a matching
`due:` shape returns (possibly `null`) immediately; a matching range or
duration shape whose inner times fail to parse falls through to the next
rule; the bare `@` rule returns last. -/
def parseTaskTime (today now : Int) (s : String) : Option TaskTimeInfo :=
  if s = "" then none
  else
    let t := jsTrimList s.toList
    match dueSplit t with
    | some rest => (parseTimeOfList today now rest).map fun d => { dueTime := some d }
    | none =>
      let rangeRes : Option TaskTimeInfo :=
        match rangeSplit t with
        | some (g1, g2) =>
          match parseTimeOfList today now g1, parseTimeOfList today now g2 with
          | some st, some en =>
            let adj := if en < st then en + msPerDay else en
            some { startTime := some st, duration := some ((adj - st) / msPerMin),
                   endTime := some adj }
          | _, _ => none
        | none => none
      match rangeRes with
      | some r => some r
      | none =>
        let durRes : Option TaskTimeInfo :=
          match durSplit t with
          | some (g1, n, isH) =>
            match parseTimeOfList today now g1 with
            | some st =>
              let dmin : Int := if isH then (n : Int) * 60 else (n : Int)
              some { startTime := some st, duration := some dmin,
                     endTime := some (st + dmin * msPerMin) }
            | none => none
          | none => none
        match durRes with
        | some r => some r
        | none =>
          match t with
          | '@' :: rest =>
            if rest ≠ [] then
              (parseTimeOfList today now rest).map fun st => { startTime := some st }
            else none
          | _ => none

/-- `String.prototype.padStart(2, '0')`. -/
def padStart2 (s : String) : String :=
  if 2 ≤ s.length then s else ⟨List.replicate (2 - s.length) '0' ++ s.toList⟩

/-- `TimeParser.formatTime`: `HH:mm` with zero padding. -/
def formatTime (t : Int) : String :=
  padStart2 (Nat.repr (getHoursN t)) ++ ":" ++ padStart2 (Nat.repr (getMinutesN t))

/-- `TimeParser.roundToInterval`: round the minute of the hour to the nearest
multiple of `intervalMinutes` (`Math.round` ties go up), clearing seconds and
milliseconds.  In JavaScript, `intervalMinutes = 0` makes `Math.round(m / 0)`
produce `Infinity`/`NaN` and `setMinutes` an invalid date; that is modelled
as `none`. -/
def roundToInterval (t : Int) (I : Nat) : Option Int :=
  if I = 0 then none
  else some (floorToHour t + (((2 * getMinutesN t + I) / (2 * I) * I : Nat) : Int) * msPerMin)

/-! ## TimelineRenderer (the renderer source file)

`mergeTimeRanges`, `alignTimeToInterval`, `generateTimeSlotsForRange`,
`calculateTimePosition` and `calculateOverlapLayout`. -/

/-- The `ParsedTask` record of the renderer. -/
structure ParsedTask where
  name : String := ""
  completed : Bool := false
  startTime : Option Int := none
  endTime : Option Int := none
  duration : Option Int := none
  dueTime : Option Int := none
  originalLine : String := ""
  id : String := ""
deriving DecidableEq, Repr

/-- A `{start, end}` time range. -/
structure TimeRange where
  start : Int
  «end» : Int
deriving DecidableEq, Repr

/-- The `(a, b) => a.start - b.start` comparator as a `Bool` order (JS sort is
stable; `List.mergeSort` is the stable sort). -/
def rangeLe : TimeRange → TimeRange → Bool := fun a b => a.start ≤ b.start

/-- The 2-hour merge buffer of `mergeTimeRanges`, in milliseconds. -/
def bufferMs : Int := 7200000

/-- The merging loop of `mergeTimeRanges`: the running last window is extended
(`end := max(end, cur.end)`) while the next range starts within the buffer of
its end, otherwise it is emitted and the next range starts a new window. -/
def mergeLoop (last : TimeRange) : List TimeRange → List TimeRange
  | [] => [last]
  | cur :: rest =>
    if cur.start ≤ last.«end» + bufferMs then
      mergeLoop ⟨last.start, max last.«end» cur.«end»⟩ rest
    else last :: mergeLoop cur rest

/-- `mergeTimeRanges`. -/
def mergeTimeRanges (ranges : List TimeRange) : List TimeRange :=
  match ranges.mergeSort rangeLe with
  | [] => []
  | r :: rest => mergeLoop r rest

/-- `alignTimeToInterval`: floor the minute of the hour to a multiple of
`intervalMinutes`, clearing seconds and milliseconds.  In JavaScript,
`intervalMinutes = 0` makes `Math.floor(minutes / 0) * 0` evaluate to `NaN`
and the constructed `Date` invalid; that is modelled as `none`. -/
def alignTimeToInterval (I : Nat) (t : Int) : Option Int :=
  if I = 0 then none
  else some (floorToHour t + ((getMinutesN t / I * I : Nat) : Int) * msPerMin)

/-- The `while (currentTime <= endTime)` slot loop, with explicit fuel: `none`
means the fuel ran out before the loop exited. -/
def genLoop (step : Int) : Nat → Int → Int → Option (List Int)
  | 0, cur, endT => if cur ≤ endT then none else some []
  | fuel + 1, cur, endT =>
    if cur ≤ endT then (genLoop step fuel (cur + step) endT).map (cur :: ·) else some []

/-- `generateTimeSlotsForRange`, with explicit fuel for both the cross-midnight
self-call (which moves the end one day later while it precedes the start) and
the slot loop.  When the alignment of the start is an invalid date (interval
zero), the loop guard `currentTime <= endTime` is false (`NaN` comparison)
and the function returns an empty slot list. -/
def generateTimeSlotsForRange (I : Nat) : Nat → Int → Int → Option (List Int)
  | 0, startT, endT =>
    if endT < startT then none
    else
      match alignTimeToInterval I startT with
      | none => some []
      | some a => genLoop ((I : Int) * msPerMin) 0 a endT
  | fuel + 1, startT, endT =>
    if endT < startT then generateTimeSlotsForRange I fuel startT (endT + msPerDay)
    else
      match alignTimeToInterval I startT with
      | none => some []
      | some a => genLoop ((I : Int) * msPerMin) (fuel + 1) a endT

/-- `calculateTimePosition`: the source signals "out of range" (and "no
ticks") with the sentinel `-1`, which the caller turns into a hidden
indicator; both early returns are modelled as `none`.  The in-range value is
`minutes from the first tick × (60px / intervalMinutes)`. -/
def calculateTimePosition (I : Nat) (time : Int) (timeSlots : List Int) : Option ℚ :=
  match timeSlots with
  | [] => none
  | first :: rest =>
    let lastT := (first :: rest).getLast (by simp)
    let extStart := first - 30 * msPerMin
    let extEnd := lastT + 30 * msPerMin
    if time < extStart ∨ extEnd < time then none
    else some (((time - first : Int) : ℚ) / 60000 * (60 / (I : ℚ)))

/-- A task with its resolved interval (the `taskRanges` elements of
`calculateOverlapLayout`; the `startTime`/`endTime` `Date` fields carry the
same values as `startMs`/`endMs` and are omitted). -/
structure TaskRange where
  task : ParsedTask
  startMs : Int
  endMs : Int
deriving DecidableEq, Repr

/-- Interval resolution of `calculateOverlapLayout`: start is
`startTime || dueTime`; end is `endTime`, else `start + duration` when the
duration is a positive number, else `start + 30min`. -/
def resolveTaskRange (t : ParsedTask) : Option TaskRange :=
  match t.startTime with
  | none =>
    match t.dueTime with
    | none => none
    | some st => some ⟨t, st, resolveEnd t st⟩
  | some st => some ⟨t, st, resolveEnd t st⟩
where
  resolveEnd (t : ParsedTask) (st : Int) : Int :=
    match t.endTime with
    | some e => e
    | none =>
      match t.duration with
      | some d => if 0 < d then st + d * msPerMin else st + 30 * msPerMin
      | none => st + 30 * msPerMin

/-- The `(a, b) => a.startMs - b.startMs` comparator. -/
def taskLe : TaskRange → TaskRange → Bool := fun a b => a.startMs ≤ b.startMs

/-- The group-partition sweep of `calculateOverlapLayout`: a task joins the
current group when its start is `≤` the group's running maximum end. -/
def groupLoop : List TaskRange → Int → List TaskRange → List (List TaskRange)
  | cur, _, [] => [cur.reverse]
  | cur, curEnd, tr :: rest =>
    if tr.startMs ≤ curEnd then groupLoop (tr :: cur) (max curEnd tr.endMs) rest
    else cur.reverse :: groupLoop [tr] tr.endMs rest

/-- Partition of the start-sorted task ranges into overlap groups. -/
def overlapGroups : List TaskRange → List (List TaskRange)
  | [] => []
  | tr :: rest => groupLoop [tr] tr.endMs rest

/-- One first-fit step: reuse the first column whose end time is `≤` the
task's start (updating that column's end), else open a new column at the
end.  Returns the updated column ends and the assigned column index. -/
def ffStep (cols : List Int) (s e : Int) : List Int × Nat :=
  match cols with
  | [] => ([e], 0)
  | cEnd :: rest =>
    if cEnd ≤ s then (e :: rest, 0)
    else
      let p := ffStep rest s e
      (cEnd :: p.1, p.2 + 1)

/-- The greedy column-assignment loop over a group (in start order), returning
the assignment of each task range and the final column end times. -/
def assignLoop : List Int → List TaskRange → List (TaskRange × Nat) × List Int
  | cols, [] => ([], cols)
  | cols, tr :: rest =>
    let p := ffStep cols tr.startMs tr.endMs
    let q := assignLoop p.1 rest
    ((tr, p.2) :: q.1, q.2)

/-- The width policy of `calculateOverlapLayout` (exact rational semantics):
`Math.max(100 / groupSize, 50)`, then `× 0.68` when `groupSize === 3` and
`× 0.5` when `groupSize > 3`. -/
def widthFor (groupSize : Nat) : ℚ :=
  let w := max (100 / (groupSize : ℚ)) 50
  if groupSize = 3 then w * (68 / 100)
  else if 3 < groupSize then w * (1 / 2)
  else w

/-- One record of the layout result. -/
structure LayoutEntry where
  task : ParsedTask
  offset : ℚ
  width : ℚ
  groupSize : Nat
deriving DecidableEq, Repr

/-- Per-group part of `calculateOverlapLayout`: sort the group by start
(stable), assign columns greedily, and emit
`offset = (100 / groupSize) * column` and the group width. -/
def layoutGroup (g : List TaskRange) : List LayoutEntry :=
  let sorted := g.mergeSort taskLe
  let asg := assignLoop [] sorted
  let groupSize := max 1 asg.2.length
  let w := widthFor groupSize
  asg.1.map fun p =>
    { task := p.1.task, offset := 100 / (groupSize : ℚ) * (p.2 : ℚ), width := w,
      groupSize := groupSize }

/-- `calculateOverlapLayout`. -/
def calculateOverlapLayout (tasks : List ParsedTask) : List LayoutEntry :=
  let taskRanges := tasks.filterMap resolveTaskRange
  let sorted := taskRanges.mergeSort taskLe
  ((overlapGroups sorted).map layoutGroup).flatten

/-! ## TimelineDragHandler

`roundToInterval` (above) plus `generateUpdatedTaskLine`, including the
time-marker regex `/@\d{1,2}:\d{2}(?:[-+]\d{1,2}:\d{2}|[+-]\d+(?:h|min))?/g`
as an explicit scanner. -/

/-- `\d{1,2}:\d{2}` with greedy backtracking (two digits preferred); returns
the matched characters and the remainder. -/
def matchHM : List Char → Option (List Char × List Char)
  | a :: b :: c :: d :: e :: r2 =>
    if a.isDigit ∧ b.isDigit ∧ c = ':' ∧ d.isDigit ∧ e.isDigit then
      some ([a, b, c, d, e], r2)
    else if a.isDigit ∧ b = ':' ∧ c.isDigit ∧ d.isDigit then
      some ([a, b, c, d], e :: r2)
    else none
  | [a, b, c, d] =>
    if a.isDigit ∧ b = ':' ∧ c.isDigit ∧ d.isDigit then some ([a, b, c, d], [])
    else none
  | _ => none

/-- `[+-]\d+(?:h|min)` — the duration suffix alternative (`h` tried first,
then `min`; the `\d+` run is maximal, shrinking it can never help since the
units start with non-digits). -/
def matchDur : List Char → Option (List Char × List Char)
  | s :: rest =>
    if s = '+' ∨ s = '-' then
      let ds := rest.takeWhile Char.isDigit
      let r2 := rest.dropWhile Char.isDigit
      if ds = [] then none
      else if r2.take 1 = ['h'] then some (s :: ds ++ ['h'], r2.drop 1)
      else if r2.take 3 = ['m', 'i', 'n'] then some (s :: ds ++ ['m', 'i', 'n'], r2.drop 3)
      else none
    else none
  | [] => none

/-- `[-+]\d{1,2}:\d{2}` — the range suffix alternative. -/
def matchRangeSfx : List Char → Option (List Char × List Char)
  | s :: rest =>
    if s = '-' ∨ s = '+' then (matchHM rest).map fun p => (s :: p.1, p.2)
    else none
  | [] => none

/-- The optional greedy suffix `(?:[-+]\d{1,2}:\d{2}|[+-]\d+(?:h|min))?`:
range alternative first, then duration, then the empty match. -/
def matchSuffix (r1 : List Char) : List Char × List Char :=
  match matchRangeSfx r1 with
  | some p => p
  | none =>
    match matchDur r1 with
    | some p => p
    | none => ([], r1)

/-- Attempt the whole time-marker pattern at the head of `l`: the core
`@\d{1,2}:\d{2}` followed by the optional suffix. -/
def matchMarker (l : List Char) : Option (List Char × List Char) :=
  match l with
  | '@' :: rest =>
    match matchHM rest with
    | some (hm, r1) => some ('@' :: hm ++ (matchSuffix r1).1, (matchSuffix r1).2)
    | none => none
  | _ => none

/-- `String.prototype.match` with the global flag, with fuel: all
non-overlapping matches, scanning left to right.  Every step consumes at
least one character (a match is nonempty), so `l.length` fuel (see
`scanMarkers`) is always enough; the fuel only serves structural recursion. -/
def scanMarkersF : Nat → List Char → List (List Char)
  | 0, _ => []
  | _ + 1, [] => []
  | fuel + 1, c :: rest =>
    match matchMarker (c :: rest) with
    | some (m, r2) => m :: scanMarkersF fuel r2
    | none => scanMarkersF fuel rest

/-- All time-marker matches of a line, left to right. -/
def scanMarkers (l : List Char) : List (List Char) := scanMarkersF l.length l

/-- `occursAt pat l i`: `pat` occurs in `l` at position `i`. -/
def occursAtB (pat l : List Char) (i : Nat) : Bool :=
  decide ((l.drop i).take pat.length = pat ∧ i + pat.length ≤ l.length)

/-- `String.prototype.lastIndexOf`, searching downward from `i`. -/
def lastIndexOfGo (pat l : List Char) : Nat → Option Nat
  | 0 => if occursAtB pat l 0 then some 0 else none
  | i + 1 => if occursAtB pat l (i + 1) then some (i + 1) else lastIndexOfGo pat l i

/-- `String.prototype.lastIndexOf` (`none` for a sentinel `-1`). -/
def lastIndexOf (pat l : List Char) : Option Nat := lastIndexOfGo pat l l.length

/-- `String.prototype.includes`. -/
def includesB (pat l : List Char) : Bool :=
  (List.range (l.length + 1)).any (occursAtB pat l)

/-- The `DragEventData` record of the drag handler. -/
structure DragEventData where
  taskName : String := ""
  originalLine : String := ""
  startTime : Option Int := none
  duration : Option Int := none
deriving Repr

/-- The rebuilt duration suffix of the new time token: `+Nh` for whole positive
hours, `+Nmin` for other positive durations, nothing otherwise. -/
def durationSuffix (duration : Option Int) : List Char :=
  match duration with
  | some d =>
    if 0 < d then
      if 60 ≤ d ∧ d % 60 = 0 then '+' :: (Nat.repr (d / 60).toNat).toList ++ ['h']
      else '+' :: (Nat.repr d.toNat).toList ++ ['m', 'i', 'n']
    else []
  | none => []

/-- The rebuilt time token `@HH:mm` plus duration suffix. -/
def newTimeToken (duration : Option Int) (newStartTime : Int) : List Char :=
  '@' :: (formatTime newStartTime).toList ++ durationSuffix duration

/-- `generateUpdatedTaskLine`: replace the last `lastIndexOf` occurrence of
the last time marker with the rebuilt token; when the line has no marker
(so the replacement left it unchanged and the token cannot already occur),
append the token at the end.  The `none` case of `lastIndexOf` is
unreachable (a scanned marker always occurs in the line). -/
def generateUpdatedTaskLine (data : DragEventData) (newStartTime : Int) : String :=
  let originalLine := data.originalLine.toList
  let newTimeStr := newTimeToken data.duration newStartTime
  let markers := scanMarkers originalLine
  let updatedLine :=
    match markers.getLast? with
    | some lastMarker =>
      match lastIndexOf lastMarker originalLine with
      | some i => originalLine.take i ++ newTimeStr ++ originalLine.drop (i + lastMarker.length)
      | none => originalLine
    | none => originalLine
  let final :=
    if includesB newTimeStr updatedLine = false ∧ updatedLine = originalLine then
      updatedLine ++ ' ' :: newTimeStr
    else updatedLine
  ⟨final⟩

/-! ## Statement helpers -/

/-- The two decimal digits of `n < 100`, as characters. -/
def pad2L (n : Nat) : List Char := [digitChar (n / 10), digitChar (n % 10)]

/-- The canonical zero-padded `HH` form of `n < 100`. -/
def pad2 (n : Nat) : String := ⟨pad2L n⟩

/-- Today at `hours:minutes` (the value `createTimeFromHourMinute` returns for
in-range arguments). -/
def mkTimeHM (today : Int) (hours minutes : Nat) : Int :=
  today + (hours : Int) * msPerHour + (minutes : Int) * msPerMin

/-- The canonical `@HH:mm-HH:mm` range token. -/
def rangeToken (h1 m1 h2 m2 : Nat) : String :=
  ⟨'@' :: pad2L h1 ++ ':' :: pad2L m1 ++ '-' :: pad2L h2 ++ ':' :: pad2L m2⟩

/-- Some rule of `parseTime`'s grammar matches the (trimmed) token in shape
(numeric range checks excluded). -/
def parseTimeShape (l : List Char) : Bool :=
  (match24 l).isSome || (match12 l).isSome ||
    (matchCnCore (stripCnPeriod l).2).isSome || (matchCnSimple l).isSome ||
    (matchRelEn l).isSome || (matchRelCn l).isSome

/-- The number of tasks of `g` whose half-open interval `[startMs, endMs)`
contains the instant `t` — the instantaneous overlap of the group at `t`. -/
def density (t : Int) (g : List TaskRange) : Nat :=
  (g.filter fun tr => decide (tr.startMs ≤ t ∧ t < tr.endMs)).length

/-- Running maximum of range ends, starting from `e0`. -/
def runMax (e0 : Int) (l : List TimeRange) : Int :=
  l.foldl (fun a r => max a r.«end») e0

/-- The maximum end of a cluster (`0` for the empty list, which never occurs). -/
def maxEnd : List TimeRange → Int
  | [] => 0
  | r :: rest => runMax r.«end» rest

/-- The members of the clusters `mergeLoop` folds together, in order. -/
def clustersFrom (acc : List TimeRange) (e : Int) : List TimeRange → List (List TimeRange)
  | [] => [acc.reverse]
  | cur :: rest =>
    if cur.start ≤ e + bufferMs then clustersFrom (cur :: acc) (max e cur.«end») rest
    else acc.reverse :: clustersFrom [cur] cur.«end» rest

/-- The partition of a (sorted) range list into the clusters `mergeTimeRanges`
merges. -/
def clusters : List TimeRange → List (List TimeRange)
  | [] => []
  | r :: rest => clustersFrom [r] r.«end» rest

/-- Each successive range starts within the 2-hour buffer of the running
maximum end, seeded at `e`. -/
def chainedFrom (e : Int) : List TimeRange → Prop
  | [] => True
  | r :: rest => r.start ≤ e + bufferMs ∧ chainedFrom (max e r.«end») rest

/-- A nonempty list of ranges that `mergeTimeRanges` would fold into a single
window. -/
def isCluster : List TimeRange → Prop
  | [] => False
  | r :: rest => chainedFrom r.«end» rest

/-- The window a cluster is summarized to: the first member's start and the
maximum member end. -/
def summarize (b : List TimeRange) : TimeRange :=
  ⟨(b.head?.getD ⟨0, 0⟩).start, maxEnd b⟩

/-- The arithmetic sequence `cur, cur + step, …` of length `n`. -/
def arithSeq (cur step : Int) : Nat → List Int
  | 0 => []
  | n + 1 => cur :: arithSeq (cur + step) step n

/-- Concrete task `09:00–09:30` (Scenario A). -/
def wTaskA : ParsedTask :=
  { startTime := some (9 * msPerHour), endTime := some (9 * msPerHour + 30 * msPerMin) }

/-- Concrete task `09:15–09:45` (Scenario A). -/
def wTaskB : ParsedTask :=
  { name := "b", startTime := some (9 * msPerHour + 15 * msPerMin),
    endTime := some (9 * msPerHour + 45 * msPerMin) }

/-- A task with the degenerate range `@14:30-14:30` (an empty interval). -/
def degTask1 : ParsedTask := { startTime := some 52200000, endTime := some 52200000 }

/-- A second task with the same degenerate range. -/
def degTask2 : ParsedTask :=
  { name := "b", startTime := some 52200000, endTime := some 52200000 }

/-- A task covering `[0, 1h)`, used to build a three-way overlap. -/
def ovTask (nm : String) : ParsedTask :=
  { name := nm, startTime := some 0, endTime := some 3600000 }

/-- The layout entry produced for a single isolated task (used in witnesses). -/
def ovEntry (nm : String) : LayoutEntry :=
  { task := ovTask nm, offset := 0, width := 100, groupSize := 1 }

/-- Drag data for a line holding one time marker (used in witnesses). -/
def dragData : DragEventData :=
  { taskName := "write report", originalLine := "- [ ] write report @09:00+30min",
    startTime := some 32400000, duration := some 30 }

/-- Drag data for a line with no time marker (used in witnesses). -/
def noMarkData : DragEventData :=
  { taskName := "write report", originalLine := "- [ ] write report",
    startTime := none, duration := none }

/-- The end time of a first-fit column that keeps its member tasks: the end
of the last task placed in it (`0` for an empty column, which never occurs). -/
def colEnd (c : List TaskRange) : Int :=
  match c.getLast? with
  | some r => r.endMs
  | none => 0

/-- `ffStep` on columns that keep their member tasks. -/
def ffInsertFull : List (List TaskRange) → TaskRange → List (List TaskRange)
  | [], tr => [[tr]]
  | c :: cs, tr =>
    if colEnd c ≤ tr.startMs then (c ++ [tr]) :: cs else c :: ffInsertFull cs tr

/-- The first-fit column assignment on columns that keep their member tasks. -/
def ffFull : List (List TaskRange) → List TaskRange → List (List TaskRange)
  | cts, [] => cts
  | cts, tr :: rest => ffFull (ffInsertFull cts tr) rest

/-- The tasks in one column never overlap: each next one starts no earlier
than the previous one ends. -/
def colChain (c : List TaskRange) : Prop :=
  c.Chain' (fun a b => a.endMs ≤ b.startMs)

/-! ## C10: termination and shape of the slot generator -/

theorem genLoop_arith {step : Int} (hstep : 0 < step) :
    ∀ (fuel : Nat) (cur endT : Int), endT - cur < step * fuel →
      ∃ n : Nat, genLoop step fuel cur endT = some (arithSeq cur step n) ∧
        (0 < n ↔ cur ≤ endT) := by
  intro fuel
  induction fuel with
  | zero =>
    intro cur endT hlt
    have hlt0 : endT - cur < 0 := by simpa using hlt
    refine ⟨0, ?_, by omega⟩
    rw [genLoop, if_neg (by omega)]
    rfl
  | succ fuel ih =>
    intro cur endT hlt
    by_cases hcur : cur ≤ endT
    · have hrec : endT - (cur + step) < step * fuel := by
        have hp : step * ((fuel : Int) + 1) = step * fuel + step := by ring
        push_cast at hlt
        rw [hp] at hlt
        omega
      obtain ⟨n, hn, _⟩ := ih (cur + step) endT hrec
      refine ⟨n + 1, ?_, by simp [hcur]⟩
      rw [genLoop, if_pos hcur, hn]
      rfl
    · refine ⟨0, ?_, by simp [hcur]⟩
      rw [genLoop, if_neg hcur]
      rfl

theorem arithSeq_head {cur step : Int} {n : Nat} (h : 0 < n) :
    (arithSeq cur step n).head? = some cur := by
  cases n with
  | zero => omega
  | succ n => rfl

theorem arithSeq_chain (step : Int) :
    ∀ (n : Nat) (cur : Int), (arithSeq cur step n).Chain' (fun a b => b = a + step) := by
  intro n
  induction n with
  | zero => intro cur; simp [arithSeq]
  | succ n ih =>
    intro cur
    rw [arithSeq, List.chain'_cons']
    refine ⟨?_, ih (cur + step)⟩
    intro b hb
    cases n with
    | zero => simp [arithSeq] at hb
    | succ n =>
      rw [arithSeq] at hb
      simp only [List.head?_cons, Option.mem_def, Option.some.injEq] at hb
      omega

theorem generateTimeSlotsForRange_of_le {I fuel : Nat} {startT endT : Int}
    (h : ¬ endT < startT) :
    generateTimeSlotsForRange I fuel startT endT =
      match alignTimeToInterval I startT with
      | none => some []
      | some a => genLoop ((I : Int) * msPerMin) fuel a endT := by
  cases fuel <;> rw [generateTimeSlotsForRange, if_neg h]

theorem generateTimeSlotsForRange_succ_lt {I fuel : Nat} {startT endT : Int}
    (h : endT < startT) :
    generateTimeSlotsForRange I (fuel + 1) startT endT =
      generateTimeSlotsForRange I fuel startT (endT + msPerDay) := by
  rw [generateTimeSlotsForRange, if_pos h]

theorem alignTimeToInterval_le {I : Nat} (hI : 0 < I) (t : Int) :
    ∃ a : Int, alignTimeToInterval I t = some a ∧ a ≤ t := by
  refine ⟨_, by rw [alignTimeToInterval, if_neg (by omega)], ?_⟩
  have h1 : getMinutesN t / I * I ≤ getMinutesN t := Nat.div_mul_le_self _ _
  have h2 : getMinutesN t = ((t / msPerMin) % 60).toNat := rfl
  simp only [floorToHour, msPerMin, msPerHour] at *
  omega

/-- **C10 (amended).** For every pair of instants and every
`intervalMinutes > 0`, `generateTimeSlotsForRange` terminates (the fuel
needed is finite, covering the cross-midnight branch that moves the end
forward a day at a time) and returns a nonempty list of slots spaced exactly
`intervalMinutes` apart (hence strictly ascending) whose first element is
the start aligned down to an `intervalMinutes` boundary.  With
`intervalMinutes = 0`, the minute alignment divides by zero, the constructed
date is invalid, the loop guard is false, and the function terminates at
once with an empty slot list (it does *not* loop forever). -/
theorem generateTimeSlotsForRange_spec :
    (∀ (I : Nat), 0 < I → ∀ (startT endT : Int),
      ∃ F : Nat, ∀ fuel, F ≤ fuel →
        ∃ slots : List Int,
          generateTimeSlotsForRange I fuel startT endT = some slots ∧
          slots ≠ [] ∧
          slots.head? = alignTimeToInterval I startT ∧
          slots.Chain' (fun a b => b = a + (I : Int) * msPerMin) ∧
          slots.Chain' (· < ·)) ∧
    (∀ (fuel : Nat) (startT endT : Int), startT ≤ endT →
      generateTimeSlotsForRange 0 fuel startT endT = some []) := by
  constructor
  · intro I hI startT
    have hstep : (0 : Int) < (I : Int) * msPerMin := by
      have : (1 : Int) ≤ (I : Int) := by exact_mod_cast hI
      simp only [msPerMin]
      nlinarith
    have base : ∀ endT : Int, startT ≤ endT →
        ∃ F : Nat, ∀ fuel, F ≤ fuel →
          ∃ slots : List Int,
            generateTimeSlotsForRange I fuel startT endT = some slots ∧
            slots ≠ [] ∧
            slots.head? = alignTimeToInterval I startT ∧
            slots.Chain' (fun a b => b = a + (I : Int) * msPerMin) ∧
            slots.Chain' (· < ·) := by
      intro endT hse
      obtain ⟨a, ha, hale⟩ := alignTimeToInterval_le hI startT
      refine ⟨(endT - a).toNat + 1, ?_⟩
      intro fuel hfuel
      have hlt : endT - a < ((I : Int) * msPerMin) * fuel := by
        have h1 : (fuel : Int) ≤ ((I : Int) * msPerMin) * fuel := by
          have h2 : (1 : Int) ≤ (I : Int) * msPerMin := by omega
          nlinarith [Int.natCast_nonneg fuel]
        omega
      obtain ⟨n, hn, hpos⟩ := genLoop_arith hstep fuel a endT hlt
      have hn0 : 0 < n := hpos.mpr (by omega)
      refine ⟨arithSeq a ((I : Int) * msPerMin) n, ?_, ?_, ?_, ?_, ?_⟩
      · rw [generateTimeSlotsForRange_of_le (by omega), ha]
        exact hn
      · cases n with
        | zero => omega
        | succ n => simp [arithSeq]
      · rw [arithSeq_head hn0, ha]
      · exact arithSeq_chain _ n a
      · exact (arithSeq_chain _ n a).imp (by intro x y hxy; omega)
    have main : ∀ (k : Nat) (endT : Int), (startT - endT).toNat = k →
        ∃ F : Nat, ∀ fuel, F ≤ fuel →
          ∃ slots : List Int,
            generateTimeSlotsForRange I fuel startT endT = some slots ∧
            slots ≠ [] ∧
            slots.head? = alignTimeToInterval I startT ∧
            slots.Chain' (fun a b => b = a + (I : Int) * msPerMin) ∧
            slots.Chain' (· < ·) := by
      intro k
      induction k using Nat.strong_induction_on with
      | _ k ih =>
        intro endT hk
        by_cases hlt : endT < startT
        · have hdec : (startT - (endT + msPerDay)).toNat < k := by
            simp only [msPerDay] at *
            omega
          obtain ⟨F, hF⟩ := ih _ hdec (endT + msPerDay) rfl
          refine ⟨F + 1, ?_⟩
          intro fuel hfuel
          match fuel with
          | 0 => omega
          | f + 1 =>
            rw [generateTimeSlotsForRange_succ_lt hlt]
            exact hF f (by omega)
        · exact base endT (by omega)
    intro endT
    exact main (startT - endT).toNat endT rfl
  · intro fuel startT endT h
    rw [generateTimeSlotsForRange_of_le (not_lt.mpr h)]
    rfl

/-- **C10 witness**: the zero-interval branch at concrete inputs. -/
theorem generateTimeSlotsForRange_spec_witness :
    generateTimeSlotsForRange 0 5 0 60000 = some [] :=
  generateTimeSlotsForRange_spec.2 5 0 60000 (by decide)

/-- **C10 counterexample** to the claim as stated: with `intervalMinutes = 0`
the function does terminate — it returns an empty slot list (in JavaScript
the `NaN` alignment makes the loop guard false), rather than looping
forever (which the fuel model would report as `none` at every fuel). -/
theorem generateTimeSlotsForRange_claim_counterexample :
    generateTimeSlotsForRange 0 1 0 3600000 = some [] ∧
      generateTimeSlotsForRange 0 1 0 3600000 ≠ none := by
  constructor
  · rfl
  · intro h
    simp [generateTimeSlotsForRange, alignTimeToInterval] at h

/-! ## C1: greedy column count equals maximum instantaneous overlap -/

theorem ffStep_cols_eq_ffInsertFull (tr : TaskRange) :
    ∀ cts : List (List TaskRange),
      (ffStep (cts.map colEnd) tr.startMs tr.endMs).1 = (ffInsertFull cts tr).map colEnd := by
  intro cts
  induction cts with
  | nil =>
    show ([tr.endMs], 0).1 = [colEnd [tr]]
    simp [colEnd]
  | cons c cs ih =>
    rw [List.map_cons, ffStep, ffInsertFull]
    by_cases hc : colEnd c ≤ tr.startMs
    · rw [if_pos hc, if_pos hc]
      show tr.endMs :: cs.map colEnd = ((c ++ [tr]) :: cs).map colEnd
      rw [List.map_cons]
      congr 1
      rw [colEnd, List.getLast?_concat]
    · rw [if_neg hc, if_neg hc]
      show colEnd c :: (ffStep (cs.map colEnd) tr.startMs tr.endMs).1 =
        (c :: ffInsertFull cs tr).map colEnd
      rw [List.map_cons]
      congr 1

theorem assignLoop_cols_eq_ffFull :
    ∀ (l : List TaskRange) (cts : List (List TaskRange)),
      (assignLoop (cts.map colEnd) l).2 = (ffFull cts l).map colEnd := by
  intro l
  induction l with
  | nil => intro cts; rfl
  | cons tr rest ih =>
    intro cts
    show (assignLoop (ffStep (cts.map colEnd) tr.startMs tr.endMs).1 rest).2 =
      (ffFull (ffInsertFull cts tr) rest).map colEnd
    rw [ffStep_cols_eq_ffInsertFull tr cts]
    exact ih (ffInsertFull cts tr)

theorem ffInsertFull_flatten_perm (cts : List (List TaskRange)) (tr : TaskRange) :
    (ffInsertFull cts tr).flatten.Perm (cts.flatten ++ [tr]) := by
  induction cts with
  | nil => simp [ffInsertFull]
  | cons c cs ih =>
    rw [ffInsertFull]
    by_cases hc : colEnd c ≤ tr.startMs
    · rw [if_pos hc]
      simp only [List.flatten_cons, List.append_assoc]
      exact List.Perm.append_left c List.perm_append_comm
    · rw [if_neg hc]
      simp only [List.flatten_cons, List.append_assoc]
      exact List.Perm.append_left c ih

theorem ffFull_flatten_perm :
    ∀ (l : List TaskRange) (cts : List (List TaskRange)),
      (ffFull cts l).flatten.Perm (cts.flatten ++ l) := by
  intro l
  induction l with
  | nil => intro cts; simp [ffFull]
  | cons tr rest ih =>
    intro cts
    rw [ffFull]
    refine (ih (ffInsertFull cts tr)).trans ?_
    refine ((ffInsertFull_flatten_perm cts tr).append_right rest).trans ?_
    rw [show (cts.flatten ++ [tr]) ++ rest = cts.flatten ++ tr :: rest by simp]

theorem ffInsertFull_inv {cts : List (List TaskRange)} {tr : TaskRange}
    (hinv : ∀ c ∈ cts, c ≠ [] ∧ colChain c) :
    ∀ c ∈ ffInsertFull cts tr, c ≠ [] ∧ colChain c := by
  induction cts with
  | nil =>
    intro c hc
    simp only [ffInsertFull, List.mem_singleton] at hc
    subst hc
    exact ⟨by simp, by simp [colChain]⟩
  | cons c0 cs ih =>
    intro c hc
    rw [ffInsertFull] at hc
    by_cases h0 : colEnd c0 ≤ tr.startMs
    · rw [if_pos h0] at hc
      rcases List.mem_cons.mp hc with rfl | hc2
      · obtain ⟨hne, hch⟩ := hinv c0 (by simp)
        refine ⟨by simp, ?_⟩
        rw [colChain, List.chain'_append]
        refine ⟨hch, by simp, ?_⟩
        intro x hx y hy
        simp only [List.head?_cons, Option.mem_def, Option.some.injEq] at hy
        subst hy
        have hce : colEnd c0 = x.endMs := by
          rw [colEnd, show c0.getLast? = some x from hx]
        omega
      · exact hinv c (List.mem_cons_of_mem _ hc2)
    · rw [if_neg h0] at hc
      rcases List.mem_cons.mp hc with rfl | hc2
      · exact hinv c (by simp)
      · exact ih (fun c' hc' => hinv c' (List.mem_cons_of_mem _ hc')) c hc2

theorem ffFull_inv :
    ∀ (l : List TaskRange) (cts : List (List TaskRange)),
      (∀ c ∈ cts, c ≠ [] ∧ colChain c) →
      ∀ c ∈ ffFull cts l, c ≠ [] ∧ colChain c := by
  intro l
  induction l with
  | nil => intro cts hinv c hc; exact hinv c hc
  | cons tr rest ih =>
    intro cts hinv c hc
    rw [ffFull] at hc
    exact ih (ffInsertFull cts tr) (ffInsertFull_inv hinv) c hc

theorem colChain_forward :
    ∀ (rest : List TaskRange) (r : TaskRange), colChain (r :: rest) →
      (∀ x ∈ r :: rest, x.startMs < x.endMs) →
      ∀ x ∈ rest, r.endMs ≤ x.startMs := by
  intro rest
  induction rest with
  | nil => intro r _ _ x hx; simp at hx
  | cons r1 rest ih =>
    intro r hch hval x hx
    rw [colChain, List.chain'_cons] at hch
    rcases List.mem_cons.mp hx with rfl | hx2
    · exact hch.1
    · have h1 := ih r1 hch.2 (fun y hy => hval y (List.mem_cons_of_mem _ hy)) x hx2
      have h2 := hval r1 (by simp)
      omega

theorem colChain_countP_le_one (t : Int) :
    ∀ (c : List TaskRange), colChain c → (∀ x ∈ c, x.startMs < x.endMs) →
      c.countP (fun tr => decide (tr.startMs ≤ t ∧ t < tr.endMs)) ≤ 1 := by
  intro c
  induction c with
  | nil => intro _ _; simp
  | cons r rest ih =>
    intro hch hval
    rw [List.countP_cons]
    by_cases hr : r.startMs ≤ t ∧ t < r.endMs
    · have hzero : rest.countP (fun tr => decide (tr.startMs ≤ t ∧ t < tr.endMs)) = 0 := by
        rw [List.countP_eq_zero]
        intro x hx
        have hf := colChain_forward rest r hch hval x hx
        simp only [decide_eq_true_eq, not_and, not_lt]
        intro _
        omega
      have hcond : decide (r.startMs ≤ t ∧ t < r.endMs) = true := by simpa using hr
      rw [hzero, hcond]
      simp
    · have hchtail : colChain rest := by
        cases rest with
        | nil => simp [colChain]
        | cons r1 rest' =>
          rw [colChain, List.chain'_cons] at hch
          exact hch.2
      have htail := ih hchtail (fun y hy => hval y (List.mem_cons_of_mem _ hy))
      have hcond : decide (r.startMs ≤ t ∧ t < r.endMs) = false := by simpa using hr
      rw [hcond]
      simpa using htail

theorem countP_flatten_eq_sum (p : TaskRange → Bool) :
    ∀ L : List (List TaskRange), L.flatten.countP p = (L.map (fun c => c.countP p)).sum := by
  intro L
  induction L with
  | nil => simp
  | cons c cs ih => simp [List.countP_append, ih]

theorem listSum_le_length {L : List Nat} (h : ∀ x ∈ L, x ≤ 1) : L.sum ≤ L.length := by
  induction L with
  | nil => simp
  | cons a l ih =>
    simp only [List.sum_cons, List.length_cons]
    have h1 := h a (by simp)
    have h2 := ih (fun x hx => h x (List.mem_cons_of_mem _ hx))
    omega

theorem length_le_listSum {L : List Nat} (h : ∀ x ∈ L, 1 ≤ x) : L.length ≤ L.sum := by
  induction L with
  | nil => simp
  | cons a l ih =>
    simp only [List.sum_cons, List.length_cons]
    have h1 := h a (by simp)
    have h2 := ih (fun x hx => h x (List.mem_cons_of_mem _ hx))
    omega

theorem density_le_ffFull_length (g : List TaskRange)
    (hval : ∀ x ∈ g, x.startMs < x.endMs) (t : Int) :
    density t g ≤ (ffFull [] g).length := by
  have hperm : (ffFull [] g).flatten.Perm g := by
    have := ffFull_flatten_perm g []
    simpa using this
  have hinv : ∀ c ∈ ffFull [] g, c ≠ [] ∧ colChain c :=
    ffFull_inv g [] (by simp)
  rw [density, ← List.countP_eq_length_filter, ← hperm.countP_eq, countP_flatten_eq_sum]
  calc ((ffFull [] g).map
          (fun c => c.countP (fun tr => decide (tr.startMs ≤ t ∧ t < tr.endMs)))).sum
      ≤ ((ffFull [] g).map
          (fun c => c.countP (fun tr => decide (tr.startMs ≤ t ∧ t < tr.endMs)))).length := by
        apply listSum_le_length
        intro x hx
        obtain ⟨c, hc, rfl⟩ := List.mem_map.mp hx
        refine colChain_countP_le_one t c (hinv c hc).2 ?_
        intro y hy
        exact hval y (hperm.subset (List.mem_flatten.mpr ⟨c, hc, hy⟩))
    _ = (ffFull [] g).length := List.length_map _ _

theorem ffInsertFull_ne_nil {cts : List (List TaskRange)} {tr : TaskRange}
    (h : ∀ c ∈ cts, c ≠ []) : ∀ c ∈ ffInsertFull cts tr, c ≠ [] := by
  induction cts with
  | nil =>
    intro c hc
    simp only [ffInsertFull, List.mem_singleton] at hc
    subst hc
    simp
  | cons c0 cs ih =>
    intro c hc
    rw [ffInsertFull] at hc
    by_cases h0 : colEnd c0 ≤ tr.startMs
    · rw [if_pos h0] at hc
      rcases List.mem_cons.mp hc with rfl | hc2
      · simp
      · exact h c (List.mem_cons_of_mem _ hc2)
    · rw [if_neg h0] at hc
      rcases List.mem_cons.mp hc with rfl | hc2
      · exact h c (by simp)
      · exact ih (fun c' hc' => h c' (List.mem_cons_of_mem _ hc')) c hc2

theorem ffInsertFull_length_reuse {cts : List (List TaskRange)} {tr : TaskRange}
    (h : ∃ c ∈ cts, colEnd c ≤ tr.startMs) :
    (ffInsertFull cts tr).length = cts.length := by
  induction cts with
  | nil => simp at h
  | cons c0 cs ih =>
    rw [ffInsertFull]
    by_cases h0 : colEnd c0 ≤ tr.startMs
    · rw [if_pos h0]; simp
    · rw [if_neg h0]
      simp only [List.length_cons]
      obtain ⟨c, hc, hcle⟩ := h
      rcases List.mem_cons.mp hc with rfl | hc2
      · exact absurd hcle h0
      · rw [ih ⟨c, hc2, hcle⟩]

theorem ffInsertFull_length_new {cts : List (List TaskRange)} {tr : TaskRange}
    (h : ∀ c ∈ cts, ¬ colEnd c ≤ tr.startMs) :
    (ffInsertFull cts tr).length = cts.length + 1 := by
  induction cts with
  | nil => simp [ffInsertFull]
  | cons c0 cs ih =>
    rw [ffInsertFull, if_neg (h c0 (by simp))]
    simp only [List.length_cons]
    rw [ih (fun c hc => h c (List.mem_cons_of_mem _ hc))]

theorem ffB :
    ∀ (l : List TaskRange) (cts : List (List TaskRange)) (pre : List TaskRange),
      (∀ c ∈ cts, c ≠ []) →
      cts.flatten.Perm pre →
      (∀ x ∈ pre, ∀ y ∈ l, x.startMs ≤ y.startMs) →
      l.Pairwise (fun a b => a.startMs ≤ b.startMs) →
      (∀ x ∈ pre ++ l, x.startMs < x.endMs) →
      (∃ t, cts.length ≤ density t pre) →
      ∃ t, (ffFull cts l).length ≤ density t (pre ++ l) := by
  intro l
  induction l with
  | nil =>
    intro cts pre _ _ _ _ _ hwit
    obtain ⟨t, ht⟩ := hwit
    exact ⟨t, by simpa [ffFull] using ht⟩
  | cons tr rest ih =>
    intro cts pre hne hperm hcross hpair hval hwit
    rw [ffFull]
    have hne' : ∀ c ∈ ffInsertFull cts tr, c ≠ [] := ffInsertFull_ne_nil hne
    have hperm' : (ffInsertFull cts tr).flatten.Perm (pre ++ [tr]) :=
      (ffInsertFull_flatten_perm cts tr).trans (hperm.append_right [tr])
    have hcross' : ∀ x ∈ pre ++ [tr], ∀ y ∈ rest, x.startMs ≤ y.startMs := by
      intro x hx y hy
      rcases List.mem_append.mp hx with hx1 | hx2
      · exact hcross x hx1 y (List.mem_cons_of_mem _ hy)
      · rw [List.mem_singleton] at hx2
        subst hx2
        exact (List.pairwise_cons.mp hpair).1 y hy
    have hpair' := (List.pairwise_cons.mp hpair).2
    have hval' : ∀ x ∈ (pre ++ [tr]) ++ rest, x.startMs < x.endMs := by
      intro x hx
      apply hval
      simp only [List.mem_append, List.mem_singleton, List.mem_cons] at hx ⊢
      tauto
    have hwit' : ∃ t, (ffInsertFull cts tr).length ≤ density t (pre ++ [tr]) := by
      by_cases hreuse : ∃ c ∈ cts, colEnd c ≤ tr.startMs
      · obtain ⟨t, ht⟩ := hwit
        rw [ffInsertFull_length_reuse hreuse]
        refine ⟨t, ?_⟩
        rw [density, ← List.countP_eq_length_filter] at ht ⊢
        rw [List.countP_append]
        omega
      · have hnew : ∀ c ∈ cts, ¬ colEnd c ≤ tr.startMs :=
          fun c hc hle => hreuse ⟨c, hc, hle⟩
        rw [ffInsertFull_length_new hnew]
        refine ⟨tr.startMs, ?_⟩
        have hcount_pre : cts.length ≤ density tr.startMs pre := by
          rw [density, ← List.countP_eq_length_filter, ← hperm.countP_eq,
            countP_flatten_eq_sum]
          have hone : ∀ v ∈ cts.map (fun c =>
              c.countP (fun x => decide (x.startMs ≤ tr.startMs ∧ tr.startMs < x.endMs))),
              1 ≤ v := by
            intro v hv
            obtain ⟨c, hc, rfl⟩ := List.mem_map.mp hv
            obtain ⟨rl, hrl⟩ : ∃ rl, c.getLast? = some rl := by
              cases hcl : c.getLast? with
              | none => exact absurd (List.getLast?_eq_none_iff.mp hcl) (hne c hc)
              | some rl => exact ⟨rl, rfl⟩
            have hmem : rl ∈ c := List.mem_of_mem_getLast? (by rw [hrl]; rfl)
            have hinpre : rl ∈ pre := hperm.subset (List.mem_flatten.mpr ⟨c, hc, hmem⟩)
            have h1 : rl.startMs ≤ tr.startMs := hcross rl hinpre tr (by simp)
            have h2 : tr.startMs < rl.endMs := by
              have h3 := hnew c hc
              rw [colEnd, hrl] at h3
              have h4 : (match some rl with
                  | some r => r.endMs
                  | none => (0 : Int)) = rl.endMs := rfl
              rw [h4] at h3
              omega
            have : 0 < c.countP
                (fun x => decide (x.startMs ≤ tr.startMs ∧ tr.startMs < x.endMs)) :=
              List.countP_pos.mpr ⟨rl, hmem, by simp only [decide_eq_true_eq]; exact ⟨h1, h2⟩⟩
            omega
          have := length_le_listSum hone
          simpa using this
        have htrval : tr.startMs < tr.endMs := hval tr (by simp)
        rw [density, ← List.countP_eq_length_filter, List.countP_append]
        rw [density, ← List.countP_eq_length_filter] at hcount_pre
        have hcnt1 : [tr].countP
            (fun x => decide (x.startMs ≤ tr.startMs ∧ tr.startMs < x.endMs)) = 1 := by
          simp only [List.countP_cons, List.countP_nil, decide_eq_true_eq]
          rw [if_pos ⟨le_refl _, htrval⟩]
        omega
    have hres := ih (ffInsertFull cts tr) (pre ++ [tr]) hne' hperm' hcross' hpair' hval' hwit'
    obtain ⟨t, ht⟩ := hres
    refine ⟨t, ?_⟩
    rw [show (pre ++ [tr]) ++ rest = pre ++ tr :: rest by simp] at ht
    exact ht

theorem ffInsertFull_length_ge (cts : List (List TaskRange)) (tr : TaskRange) :
    cts.length ≤ (ffInsertFull cts tr).length := by
  by_cases hreuse : ∃ c ∈ cts, colEnd c ≤ tr.startMs
  · rw [ffInsertFull_length_reuse hreuse]
  · rw [ffInsertFull_length_new (fun c hc hle => hreuse ⟨c, hc, hle⟩)]
    omega

theorem ffFull_length_mono :
    ∀ (l : List TaskRange) (cts : List (List TaskRange)),
      cts.length ≤ (ffFull cts l).length := by
  intro l
  induction l with
  | nil => intro cts; exact le_refl _
  | cons tr rest ih =>
    intro cts
    rw [ffFull]
    exact (ffInsertFull_length_ge cts tr).trans (ih (ffInsertFull cts tr))

theorem ffFull_length_pos {l : List TaskRange} (hl : l ≠ []) :
    1 ≤ (ffFull [] l).length := by
  match l with
  | [] => exact absurd rfl hl
  | tr :: rest =>
    rw [ffFull]
    have h1 : (ffInsertFull [] tr).length = 1 := by simp [ffInsertFull]
    have := ffFull_length_mono rest (ffInsertFull [] tr)
    omega

theorem groupLoop_flatten :
    ∀ (rest acc : List TaskRange) (e : Int),
      (groupLoop acc e rest).flatten = acc.reverse ++ rest := by
  intro rest
  induction rest with
  | nil => intro acc e; simp [groupLoop]
  | cons tr rest ih =>
    intro acc e
    rw [groupLoop]
    by_cases htr : tr.startMs ≤ e
    · rw [if_pos htr, ih]
      simp
    · rw [if_neg htr]
      simp only [List.flatten_cons, ih]
      simp

theorem groupLoop_ne_nil :
    ∀ (rest acc : List TaskRange) (e : Int), acc ≠ [] →
      ∀ g ∈ groupLoop acc e rest, g ≠ [] := by
  intro rest
  induction rest with
  | nil =>
    intro acc e hacc g hg
    simp only [groupLoop, List.mem_singleton] at hg
    subst hg
    simpa using hacc
  | cons tr rest ih =>
    intro acc e hacc g hg
    rw [groupLoop] at hg
    by_cases htr : tr.startMs ≤ e
    · rw [if_pos htr] at hg
      exact ih _ _ (by simp) g hg
    · rw [if_neg htr] at hg
      rcases List.mem_cons.mp hg with rfl | hg2
      · simpa using hacc
      · exact ih _ _ (by simp) g hg2

theorem overlapGroups_flatten (l : List TaskRange) :
    (overlapGroups l).flatten = l := by
  match l with
  | [] => rfl
  | tr :: rest =>
    show (groupLoop [tr] tr.endMs rest).flatten = tr :: rest
    rw [groupLoop_flatten]
    simp

theorem overlapGroups_ne_nil {l : List TaskRange} :
    ∀ g ∈ overlapGroups l, g ≠ [] := by
  match l with
  | [] => intro g hg; simp [overlapGroups] at hg
  | tr :: rest =>
    intro g hg
    exact groupLoop_ne_nil rest [tr] tr.endMs (by simp) g hg

theorem taskLe_trans : ∀ (a b c : TaskRange),
    taskLe a b = true → taskLe b c = true → taskLe a c = true := by
  intro a b c
  simp only [taskLe, decide_eq_true_eq]
  omega

theorem taskLe_total : ∀ (a b : TaskRange), (taskLe a b || taskLe b a) = true := by
  intro a b
  simp only [taskLe, Bool.or_eq_true, decide_eq_true_eq]
  omega

/-- The per-group core of C1: for a group with positive-length intervals, the
number of columns the greedy first-fit assignment opens is exactly the
maximum instantaneous overlap of the group. -/
theorem ff_cols_eq_max_density (g : List TaskRange) (hg : g ≠ [])
    (hval : ∀ x ∈ g, x.startMs < x.endMs) :
    (∀ t, density t g ≤ (assignLoop [] (g.mergeSort taskLe)).2.length) ∧
    (∃ t, density t g = (assignLoop [] (g.mergeSort taskLe)).2.length) := by
  have hperm : (g.mergeSort taskLe).Perm g := List.mergeSort_perm g taskLe
  have hvalgs : ∀ x ∈ g.mergeSort taskLe, x.startMs < x.endMs :=
    fun x hx => hval x (hperm.subset hx)
  have hpair : (g.mergeSort taskLe).Pairwise (fun a b => a.startMs ≤ b.startMs) := by
    have := List.sorted_mergeSort taskLe_trans taskLe_total g
    refine this.imp ?_
    intro a b hab
    simpa [taskLe] using hab
  have hcols : (assignLoop [] (g.mergeSort taskLe)).2 =
      (ffFull [] (g.mergeSort taskLe)).map colEnd := by
    have := assignLoop_cols_eq_ffFull (g.mergeSort taskLe) []
    simpa using this
  have hlen : (assignLoop [] (g.mergeSort taskLe)).2.length =
      (ffFull [] (g.mergeSort taskLe)).length := by
    rw [hcols, List.length_map]
  have hdge : ∀ t, density t g = density t (g.mergeSort taskLe) := by
    intro t
    rw [density, density, ← List.countP_eq_length_filter, ← List.countP_eq_length_filter,
      hperm.countP_eq]
  constructor
  · intro t
    rw [hlen, hdge t]
    exact density_le_ffFull_length _ hvalgs t
  · have hB := ffB (g.mergeSort taskLe) [] [] (by simp) (by simp) (by simp) hpair
      (by simpa using hvalgs) ⟨0, by simp [density]⟩
    obtain ⟨t, ht⟩ := hB
    refine ⟨t, ?_⟩
    have hA := density_le_ffFull_length _ hvalgs t
    rw [hlen, hdge t]
    simp only [List.nil_append] at ht
    omega

/-- **C1 (amended).** For every task list whose resolved intervals all have
positive length, within each overlap group of `calculateOverlapLayout` the
number of columns opened by the greedy first-fit assignment (the group's
`groupSize`) equals the maximum number of tasks of the group whose intervals
overlap at a single instant. -/
theorem calculateOverlapLayout_groupSize_max_overlap (tasks : List ParsedTask)
    (hval : ∀ tr ∈ tasks.filterMap resolveTaskRange, tr.startMs < tr.endMs) :
    ∀ g ∈ overlapGroups ((tasks.filterMap resolveTaskRange).mergeSort taskLe),
      (∀ t : Int, density t g ≤ max 1 (assignLoop [] (g.mergeSort taskLe)).2.length) ∧
      (∃ t : Int, density t g = max 1 (assignLoop [] (g.mergeSort taskLe)).2.length) := by
  intro g hgmem
  have hgne : g ≠ [] := overlapGroups_ne_nil g hgmem
  have hsub : ∀ x ∈ g, x ∈ (tasks.filterMap resolveTaskRange).mergeSort taskLe := by
    intro x hx
    rw [← overlapGroups_flatten ((tasks.filterMap resolveTaskRange).mergeSort taskLe)]
    exact List.mem_flatten.mpr ⟨g, hgmem, hx⟩
  have hvalg : ∀ x ∈ g, x.startMs < x.endMs := by
    intro x hx
    exact hval x ((List.mergeSort_perm _ taskLe).subset (hsub x hx))
  have hcore := ff_cols_eq_max_density g hgne hvalg
  have hn1 : 1 ≤ (assignLoop [] (g.mergeSort taskLe)).2.length := by
    have hgs : g.mergeSort taskLe ≠ [] := by
      intro hcontra
      have := (List.mergeSort_perm g taskLe).length_eq
      rw [hcontra] at this
      simp at this
      exact hgne (List.eq_nil_of_length_eq_zero this.symm)
    have hcols : (assignLoop [] (g.mergeSort taskLe)).2 =
        (ffFull [] (g.mergeSort taskLe)).map colEnd := by
      have := assignLoop_cols_eq_ffFull (g.mergeSort taskLe) []
      simpa using this
    rw [hcols, List.length_map]
    exact ffFull_length_pos hgs
  rw [Nat.max_eq_right hn1]
  exact hcore

/-- **C1 witness**: two genuinely overlapping tasks plus an isolated one —
the first group opens two columns and indeed two tasks overlap at 9:15. -/
theorem calculateOverlapLayout_groupSize_max_overlap_witness :
    (∀ tr ∈ [wTaskA, wTaskB].filterMap resolveTaskRange, tr.startMs < tr.endMs) ∧
    ∀ g ∈ overlapGroups (([wTaskA, wTaskB].filterMap resolveTaskRange).mergeSort taskLe),
      (∀ t : Int, density t g ≤ max 1 (assignLoop [] (g.mergeSort taskLe)).2.length) ∧
      (∃ t : Int, density t g = max 1 (assignLoop [] (g.mergeSort taskLe)).2.length) :=
  ⟨by decide, calculateOverlapLayout_groupSize_max_overlap _ (by decide)⟩

/-- **C1 counterexample** to the claim as stated: two tasks with the
degenerate range `@14:30-14:30` resolve to empty intervals `[t, t)`.  They
are grouped together with `groupSize = 1`, yet no instant is contained in
any of the intervals, so the maximum instantaneous overlap is `0 ≠ 1`. -/
theorem calculateOverlapLayout_groupSize_claim_counterexample :
    ((calculateOverlapLayout [degTask1, degTask2]).map LayoutEntry.groupSize = [1, 1]) ∧
    (∀ g ∈ overlapGroups (([degTask1, degTask2].filterMap resolveTaskRange).mergeSort taskLe),
      ∀ t : Int, density t g = 0) := by
  have h1 : [degTask1, degTask2].filterMap resolveTaskRange =
      [⟨degTask1, 52200000, 52200000⟩, ⟨degTask2, 52200000, 52200000⟩] := rfl
  have hsort : ([degTask1, degTask2].filterMap resolveTaskRange).mergeSort taskLe =
      [⟨degTask1, 52200000, 52200000⟩, ⟨degTask2, 52200000, 52200000⟩] := by
    rw [h1]
    exact List.mergeSort_of_sorted (by decide)
  have hgroups : overlapGroups ([⟨degTask1, 52200000, 52200000⟩,
      ⟨degTask2, 52200000, 52200000⟩] : List TaskRange) =
      [[⟨degTask1, 52200000, 52200000⟩, ⟨degTask2, 52200000, 52200000⟩]] := rfl
  have hsort2 : ([⟨degTask1, 52200000, 52200000⟩,
      ⟨degTask2, 52200000, 52200000⟩] : List TaskRange).mergeSort taskLe =
      [⟨degTask1, 52200000, 52200000⟩, ⟨degTask2, 52200000, 52200000⟩] :=
    List.mergeSort_of_sorted (by decide)
  constructor
  · simp only [calculateOverlapLayout]
    rw [hsort, hgroups]
    simp only [List.map_cons, List.map_nil, List.flatten_cons, List.flatten_nil,
      List.append_nil, layoutGroup]
    rw [hsort2]
    rfl
  · intro g hg t
    rw [hsort, hgroups, List.mem_singleton] at hg
    subst hg
    rw [density, List.filter_cons, List.filter_cons]
    simp only [decide_eq_true_eq]
    rw [if_neg (by omega), if_neg (by omega)]
    rfl

/-! ## C2: width and offset policy of `calculateOverlapLayout` -/

theorem ffStep_snd_lt_length (s e : Int) :
    ∀ cols : List Int, (ffStep cols s e).2 < (ffStep cols s e).1.length := by
  intro cols
  induction cols with
  | nil => simp [ffStep]
  | cons c rest ih =>
    rw [ffStep]
    by_cases hc : c ≤ s
    · rw [if_pos hc]
      simp
    · rw [if_neg hc]
      simpa using ih

theorem ffStep_length_le (s e : Int) :
    ∀ cols : List Int, cols.length ≤ (ffStep cols s e).1.length := by
  intro cols
  induction cols with
  | nil => simp [ffStep]
  | cons c rest ih =>
    rw [ffStep]
    by_cases hc : c ≤ s
    · rw [if_pos hc]
      simp
    · rw [if_neg hc]
      simpa using ih

theorem assignLoop_length_le :
    ∀ (l : List TaskRange) (cols : List Int),
      cols.length ≤ (assignLoop cols l).2.length := by
  intro l
  induction l with
  | nil => intro cols; exact le_refl _
  | cons tr rest ih =>
    intro cols
    show cols.length ≤ (assignLoop (ffStep cols tr.startMs tr.endMs).1 rest).2.length
    exact le_trans (ffStep_length_le _ _ cols) (ih _)

theorem assignLoop_snd_lt :
    ∀ (l : List TaskRange) (cols : List Int) (p : TaskRange × Nat),
      p ∈ (assignLoop cols l).1 → p.2 < (assignLoop cols l).2.length := by
  intro l
  induction l with
  | nil =>
    intro cols p hp
    simp [assignLoop] at hp
  | cons tr rest ih =>
    intro cols p hp
    have hp' : p ∈ (tr, (ffStep cols tr.startMs tr.endMs).2) ::
        (assignLoop (ffStep cols tr.startMs tr.endMs).1 rest).1 := hp
    have htail : (assignLoop cols (tr :: rest)).2.length =
        (assignLoop (ffStep cols tr.startMs tr.endMs).1 rest).2.length := rfl
    rw [htail]
    rcases List.mem_cons.mp hp' with h | h
    · subst h
      exact lt_of_lt_of_le (ffStep_snd_lt_length tr.startMs tr.endMs cols)
        (assignLoop_length_le rest _)
    · exact ih _ p h

theorem layoutGroup_entry (g : List TaskRange) :
    ∀ ent ∈ layoutGroup g,
      ent.groupSize = max 1 (assignLoop [] (g.mergeSort taskLe)).2.length ∧
      ent.width = widthFor ent.groupSize ∧
      ∃ c : Nat, c < ent.groupSize ∧ ent.offset = 100 / (ent.groupSize : ℚ) * (c : ℚ) := by
  intro ent hent
  obtain ⟨p, hp, rfl⟩ := List.mem_map.mp hent
  refine ⟨rfl, rfl, p.2, ?_, rfl⟩
  have h1 := assignLoop_snd_lt (g.mergeSort taskLe) [] p hp
  show p.2 < max 1 (assignLoop [] (g.mergeSort taskLe)).2.length
  omega

/-- **C2 (amended).** Every entry of `calculateOverlapLayout` has width
`max(100/groupSize, 50)` — the base width is floored at `50%`, which the
claim's formula `100/groupSize` omits — additionally multiplied by `0.68`
when `groupSize = 3` and by `0.5` when `groupSize > 3`; and its offset is
`column × (100/groupSize)` for its assigned column `column < groupSize`. -/
theorem calculateOverlapLayout_width_offset (tasks : List ParsedTask) :
    ∀ ent ∈ calculateOverlapLayout tasks,
      ent.width = (if ent.groupSize = 3 then max (100 / (ent.groupSize : ℚ)) 50 * (68 / 100)
        else if 3 < ent.groupSize then max (100 / (ent.groupSize : ℚ)) 50 * (1 / 2)
        else max (100 / (ent.groupSize : ℚ)) 50) ∧
      ∃ c : Nat, c < ent.groupSize ∧ ent.offset = 100 / (ent.groupSize : ℚ) * (c : ℚ) := by
  intro ent hent
  obtain ⟨lg, hlg, hentlg⟩ := List.mem_flatten.mp hent
  obtain ⟨g, hg, rfl⟩ := List.mem_map.mp hlg
  obtain ⟨hgs, hw, hoff⟩ := layoutGroup_entry g ent hentlg
  refine ⟨?_, hoff⟩
  rw [hw]
  rfl

/-- **C2 witness**: a single isolated task is laid out with `groupSize = 1`,
width `100` and offset `0`, and the theorem's formula holds of it. -/
theorem calculateOverlapLayout_width_offset_witness :
    ovEntry "a" ∈ calculateOverlapLayout [ovTask "a"] ∧
      ((ovEntry "a").width =
        (if (ovEntry "a").groupSize = 3 then
          max (100 / ((ovEntry "a").groupSize : ℚ)) 50 * (68 / 100)
        else if 3 < (ovEntry "a").groupSize then
          max (100 / ((ovEntry "a").groupSize : ℚ)) 50 * (1 / 2)
        else max (100 / ((ovEntry "a").groupSize : ℚ)) 50) ∧
      ∃ c : Nat, c < (ovEntry "a").groupSize ∧
        (ovEntry "a").offset = 100 / (((ovEntry "a").groupSize : Nat) : ℚ) * (c : ℚ)) := by
  have h1 : [ovTask "a"].filterMap resolveTaskRange = [⟨ovTask "a", 0, 3600000⟩] := rfl
  have hsort : ([ovTask "a"].filterMap resolveTaskRange).mergeSort taskLe =
      [⟨ovTask "a", 0, 3600000⟩] := by
    rw [h1]
    exact List.mergeSort_of_sorted (by decide)
  have hsort2 : ([⟨ovTask "a", 0, 3600000⟩] : List TaskRange).mergeSort taskLe =
      [⟨ovTask "a", 0, 3600000⟩] := List.mergeSort_of_sorted (by decide)
  have hgrp : overlapGroups ([⟨ovTask "a", 0, 3600000⟩] : List TaskRange) =
      [[⟨ovTask "a", 0, 3600000⟩]] := rfl
  have hassign : assignLoop [] ([⟨ovTask "a", 0, 3600000⟩] : List TaskRange) =
      ([(⟨ovTask "a", 0, 3600000⟩, 0)], [3600000]) := rfl
  have hmem : ovEntry "a" ∈ calculateOverlapLayout [ovTask "a"] := by
    simp only [calculateOverlapLayout]
    rw [hsort, hgrp]
    simp only [List.map_cons, List.map_nil, List.flatten_cons, List.flatten_nil,
      List.append_nil, layoutGroup]
    rw [hsort2, hassign]
    simp only [List.map_cons, List.map_nil, List.length_cons, List.length_nil,
      List.mem_singleton, ovEntry, LayoutEntry.mk.injEq, widthFor]
    norm_num
  exact ⟨hmem, calculateOverlapLayout_width_offset [ovTask "a"] (ovEntry "a") hmem⟩

/-- **C2 counterexample** to the claim as stated: three mutually overlapping
tasks give `groupSize = 3`; the code floors the base width at `50%`
(`Math.max(100/groupSize, 50)`), so each rendered width is `50 × 0.68 = 34`,
not `100/3 × 0.68` as the claimed formula predicts. -/
theorem calculateOverlapLayout_width_claim_counterexample :
    ((calculateOverlapLayout [ovTask "a", ovTask "b", ovTask "c"]).map
        (fun ent => (ent.groupSize, ent.width)) = [(3, 34), (3, 34), (3, 34)]) ∧
      (34 : ℚ) ≠ 100 / (3 : ℚ) * (68 / 100) := by
  have h1 : [ovTask "a", ovTask "b", ovTask "c"].filterMap resolveTaskRange =
      [⟨ovTask "a", 0, 3600000⟩, ⟨ovTask "b", 0, 3600000⟩, ⟨ovTask "c", 0, 3600000⟩] := rfl
  have hsort : ([ovTask "a", ovTask "b",
      ovTask "c"].filterMap resolveTaskRange).mergeSort taskLe =
      [⟨ovTask "a", 0, 3600000⟩, ⟨ovTask "b", 0, 3600000⟩, ⟨ovTask "c", 0, 3600000⟩] := by
    rw [h1]
    exact List.mergeSort_of_sorted (by decide)
  have hsort2 : ([⟨ovTask "a", 0, 3600000⟩, ⟨ovTask "b", 0, 3600000⟩,
      ⟨ovTask "c", 0, 3600000⟩] : List TaskRange).mergeSort taskLe =
      [⟨ovTask "a", 0, 3600000⟩, ⟨ovTask "b", 0, 3600000⟩, ⟨ovTask "c", 0, 3600000⟩] :=
    List.mergeSort_of_sorted (by decide)
  have hgrp : overlapGroups ([⟨ovTask "a", 0, 3600000⟩, ⟨ovTask "b", 0, 3600000⟩,
      ⟨ovTask "c", 0, 3600000⟩] : List TaskRange) =
      [[⟨ovTask "a", 0, 3600000⟩, ⟨ovTask "b", 0, 3600000⟩, ⟨ovTask "c", 0, 3600000⟩]] := rfl
  have hassign : assignLoop [] ([⟨ovTask "a", 0, 3600000⟩, ⟨ovTask "b", 0, 3600000⟩,
      ⟨ovTask "c", 0, 3600000⟩] : List TaskRange) =
      ([(⟨ovTask "a", 0, 3600000⟩, 0), (⟨ovTask "b", 0, 3600000⟩, 1),
        (⟨ovTask "c", 0, 3600000⟩, 2)], [3600000, 3600000, 3600000]) := rfl
  constructor
  · simp only [calculateOverlapLayout]
    rw [hsort, hgrp]
    simp only [List.map_cons, List.map_nil, List.flatten_cons, List.flatten_nil,
      List.append_nil, layoutGroup]
    rw [hsort2, hassign]
    simp only [List.map_cons, List.map_nil, List.length_cons, List.length_nil,
      List.cons.injEq, Prod.mk.injEq, widthFor]
    norm_num
  · norm_num

/-! ## Properties of the time-marker matcher -/

theorem matchHM_append {l m r : List Char} (h : matchHM l = some (m, r)) :
    m ++ r = l ∧ 0 < m.length := by
  match l with
  | a :: b :: c :: d :: e :: r2 =>
    simp only [matchHM] at h
    split_ifs at h with h1 h2
    · obtain ⟨rfl, rfl⟩ := by
        simpa only [Option.some.injEq, Prod.mk.injEq] using h
      exact ⟨by simp [h1.2.2.1], by simp⟩
    · obtain ⟨rfl, rfl⟩ := by
        simpa only [Option.some.injEq, Prod.mk.injEq] using h
      exact ⟨by simp [h2.2.1], by simp⟩
  | [a, b, c, d] =>
    simp only [matchHM] at h
    split_ifs at h with h1
    obtain ⟨rfl, rfl⟩ := by
      simpa only [Option.some.injEq, Prod.mk.injEq] using h
    exact ⟨by simp [h1.2.1], by simp⟩
  | [] | [_] | [_, _] | [_, _, _] => simp [matchHM] at h

theorem matchDur_append {l m r : List Char} (h : matchDur l = some (m, r)) :
    m ++ r = l ∧ 0 < m.length := by
  match l with
  | [] => simp [matchDur] at h
  | s :: rest =>
    have hsplit : rest.takeWhile Char.isDigit ++ rest.dropWhile Char.isDigit = rest :=
      List.takeWhile_append_dropWhile Char.isDigit rest
    simp only [matchDur] at h
    split_ifs at h with h1 h2 h3 h4
    · rw [Option.some.injEq, Prod.mk.injEq] at h
      obtain ⟨rfl, rfl⟩ := h
      refine ⟨?_, by simp⟩
      have h5 : (['h'] : List Char) ++ (rest.dropWhile Char.isDigit).drop 1 =
          rest.dropWhile Char.isDigit := by
        rw [← h3]; exact List.take_append_drop 1 _
      calc s :: rest.takeWhile Char.isDigit ++ ['h'] ++ (rest.dropWhile Char.isDigit).drop 1
          = s :: (rest.takeWhile Char.isDigit ++
              (['h'] ++ (rest.dropWhile Char.isDigit).drop 1)) := by simp
        _ = s :: (rest.takeWhile Char.isDigit ++ rest.dropWhile Char.isDigit) := by rw [h5]
        _ = s :: rest := by rw [hsplit]
    · rw [Option.some.injEq, Prod.mk.injEq] at h
      obtain ⟨rfl, rfl⟩ := h
      refine ⟨?_, by simp⟩
      have h5 : (['m', 'i', 'n'] : List Char) ++ (rest.dropWhile Char.isDigit).drop 3 =
          rest.dropWhile Char.isDigit := by
        rw [← h4]; exact List.take_append_drop 3 _
      calc s :: rest.takeWhile Char.isDigit ++ ['m', 'i', 'n'] ++
              (rest.dropWhile Char.isDigit).drop 3
          = s :: (rest.takeWhile Char.isDigit ++
              (['m', 'i', 'n'] ++ (rest.dropWhile Char.isDigit).drop 3)) := by simp
        _ = s :: (rest.takeWhile Char.isDigit ++ rest.dropWhile Char.isDigit) := by rw [h5]
        _ = s :: rest := by rw [hsplit]

theorem matchRangeSfx_append {l m r : List Char} (h : matchRangeSfx l = some (m, r)) :
    m ++ r = l ∧ 0 < m.length := by
  match l with
  | [] => simp [matchRangeSfx] at h
  | s :: rest =>
    simp only [matchRangeSfx] at h
    split_ifs at h with h1
    match hm : matchHM rest with
    | none => rw [hm] at h; exact absurd h (by simp)
    | some (m', r') =>
      rw [hm, Option.map_some', Option.some.injEq, Prod.mk.injEq] at h
      obtain ⟨rfl, rfl⟩ := h
      have := matchHM_append hm
      exact ⟨by simp [this.1], by simp⟩

theorem matchSuffix_append (r1 : List Char) :
    (matchSuffix r1).1 ++ (matchSuffix r1).2 = r1 := by
  unfold matchSuffix
  match hs : matchRangeSfx r1 with
  | some p => exact (matchRangeSfx_append (by rw [hs])).1
  | none =>
    match hd : matchDur r1 with
    | some p => exact (matchDur_append (by rw [hd])).1
    | none => simp

theorem matchMarker_eq_none {c : Char} {rest : List Char} (hc : ¬ c = '@') :
    matchMarker (c :: rest) = none := by
  simp only [matchMarker]
  split
  · next heq =>
    injection heq with h1 _
    exact absurd h1 hc
  · rfl

theorem matchMarker_spec (l : List Char) :
    matchMarker l = none ∨
      ∃ m r, matchMarker l = some (m, r) ∧ m ++ r = l ∧ 0 < m.length := by
  match l with
  | [] => left; rfl
  | c :: rest =>
    by_cases hc : c = '@'
    · subst hc
      match hm : matchHM rest with
      | none => left; simp [matchMarker, hm]
      | some (hmm, r1) =>
        right
        have hhm := matchHM_append hm
        refine ⟨'@' :: hmm ++ (matchSuffix r1).1, (matchSuffix r1).2, ?_, ?_, by simp⟩
        · simp [matchMarker, hm]
        · have hsf := matchSuffix_append r1
          calc '@' :: hmm ++ (matchSuffix r1).1 ++ (matchSuffix r1).2
              = '@' :: (hmm ++ ((matchSuffix r1).1 ++ (matchSuffix r1).2)) := by simp
            _ = '@' :: (hmm ++ r1) := by rw [hsf]
            _ = '@' :: rest := by rw [hhm.1]
    · left; exact matchMarker_eq_none hc

theorem matchMarker_append {l m r : List Char} (h : matchMarker l = some (m, r)) :
    m ++ r = l ∧ 0 < m.length := by
  rcases matchMarker_spec l with hn | ⟨m', r', he, ha, hl⟩
  · rw [hn] at h; cases h
  · rw [he, Option.some.injEq, Prod.mk.injEq] at h
    obtain ⟨rfl, rfl⟩ := h
    exact ⟨ha, hl⟩

/-! ## Digit and canonical-token lemmas -/

theorem digitChar_isDigit {d : Nat} (hd : d ≤ 9) : (digitChar d).isDigit = true := by
  interval_cases d <;> decide

theorem digitVal_digitChar {d : Nat} (hd : d ≤ 9) : digitVal (digitChar d) = d := by
  interval_cases d <;> decide

theorem digitChar_not_space {d : Nat} (hd : d ≤ 9) : isSpaceChar (digitChar d) = false := by
  interval_cases d <;> decide

theorem digitChar_ne_dash {d : Nat} (hd : d ≤ 9) : digitChar d ≠ '-' := by
  interval_cases d <;> decide

theorem dropWhile_eq_self_of_not {p : Char → Bool} {l : List Char}
    (h : ∀ c ∈ l, p c = false) : l.dropWhile p = l := by
  cases l with
  | nil => rfl
  | cons c rest => rw [List.dropWhile_cons, h c (by simp)]; simp

theorem jsTrimList_eq_self {l : List Char} (h : ∀ c ∈ l, isSpaceChar c = false) :
    jsTrimList l = l := by
  unfold jsTrimList
  rw [dropWhile_eq_self_of_not h, dropWhile_eq_self_of_not (by simpa using h),
    List.reverse_reverse]

theorem pad2L_no_space {n : Nat} (hn : n < 100) : ∀ c ∈ pad2L n, isSpaceChar c = false := by
  intro c hc
  rcases (by simpa [pad2L] using hc : c = digitChar (n / 10) ∨ c = digitChar (n % 10)) with
    rfl | rfl
  · exact digitChar_not_space (by omega)
  · exact digitChar_not_space (by omega)

theorem match24_pad2 {h m : Nat} (hh : h < 100) (hm : m < 100) :
    match24 (pad2L h ++ ':' :: pad2L m) = some (h, m) := by
  have d1 := digitChar_isDigit (show h / 10 ≤ 9 by omega)
  have d2 := digitChar_isDigit (show h % 10 ≤ 9 by omega)
  have d3 := digitChar_isDigit (show m / 10 ≤ 9 by omega)
  have d4 := digitChar_isDigit (show m % 10 ≤ 9 by omega)
  have v1 := digitVal_digitChar (show h / 10 ≤ 9 by omega)
  have v2 := digitVal_digitChar (show h % 10 ≤ 9 by omega)
  have v3 := digitVal_digitChar (show m / 10 ≤ 9 by omega)
  have v4 := digitVal_digitChar (show m % 10 ≤ 9 by omega)
  have hcond : (digitChar (h / 10)).isDigit = true ∧ (digitChar (h % 10)).isDigit = true ∧
      True ∧ (digitChar (m / 10)).isDigit = true ∧
      (digitChar (m % 10)).isDigit = true := ⟨d1, d2, trivial, d3, d4⟩
  simp only [pad2L, List.cons_append, List.nil_append, match24]
  rw [if_pos hcond, v1, v2, v3, v4, Nat.div_add_mod, Nat.div_add_mod]

theorem parseTimeL_pad2 {today now : Int} {h m : Nat} (hh : h ≤ 23) (hm : m ≤ 59) :
    parseTimeL today now (pad2L h ++ ':' :: pad2L m) = some (mkTimeHM today h m) := by
  simp only [parseTimeL, match24_pad2 (show h < 100 by omega) (show m < 100 by omega)]
  rw [createTimeFromHourMinute, if_neg (show ¬ (23 < h ∨ 59 < m) by omega)]
  rfl

theorem getHoursN_mkTimeHM {d : Int} {h m : Nat} (hh : h ≤ 23) (hm : m ≤ 59) :
    getHoursN (mkTimeHM (d * msPerDay) h m) = h := by
  simp only [getHoursN, mkTimeHM, msPerDay, msPerHour, msPerMin]
  omega

theorem getMinutesN_mkTimeHM {d : Int} {h m : Nat} (hh : h ≤ 23) (hm : m ≤ 59) :
    getMinutesN (mkTimeHM (d * msPerDay) h m) = m := by
  simp only [getMinutesN, mkTimeHM, msPerDay, msPerHour, msPerMin]
  omega

theorem padStart2_repr {n : Nat} (hn : n < 100) : padStart2 (Nat.repr n) = pad2 n := by
  revert hn
  revert n
  decide

/-- C6 helper: formatting today-at-`h:m` gives the canonical token back. -/
theorem formatTime_mkTimeHM {d : Int} {h m : Nat} (hh : h ≤ 23) (hm : m ≤ 59) :
    formatTime (mkTimeHM (d * msPerDay) h m) = pad2 h ++ ":" ++ pad2 m := by
  rw [formatTime, getHoursN_mkTimeHM hh hm, getMinutesN_mkTimeHM hh hm,
    padStart2_repr (by omega), padStart2_repr (by omega)]

/-- **C6.** For every hour `H ∈ [0,23]` and minute `M ∈ [0,59]`, parsing the
canonical zero-padded token `"HH:mm"` with `parseTime` and formatting the
result with `formatTime` returns exactly the same `"HH:mm"` string.  (`d` is
the calendar day of the wall clock at parse time, `now` the wall clock.) -/
theorem parseTime_formatTime_roundtrip (d now : Int) (H M : Nat)
    (hH : H ≤ 23) (hM : M ≤ 59) :
    (parseTime (d * msPerDay) now (pad2 H ++ ":" ++ pad2 M)).map formatTime =
      some (pad2 H ++ ":" ++ pad2 M) := by
  have hlist : (pad2 H ++ ":" ++ pad2 M).toList = pad2L H ++ ':' :: pad2L M := by
    simp only [String.toList, pad2, String.data_append]
    rfl
  have hne : ¬ (pad2 H ++ ":" ++ pad2 M) = "" := by
    intro hcontra
    have : (pad2 H ++ ":" ++ pad2 M).toList = [] := by rw [hcontra]; rfl
    rw [hlist] at this
    simp [pad2L] at this
  rw [parseTime, if_neg hne, hlist,
    jsTrimList_eq_self (by
      intro c hc
      rcases List.mem_append.mp hc with hc1 | hc2
      · exact pad2L_no_space (by omega) c hc1
      · rcases List.mem_cons.mp hc2 with rfl | hc3
        · decide
        · exact pad2L_no_space (by omega) c hc3),
    parseTimeL_pad2 hH hM, Option.map_some', formatTime_mkTimeHM hH hM]

/-- **C6 witness** at `H = 9`, `M = 5`, day 3, now 0. -/
theorem parseTime_formatTime_roundtrip_witness :
    (9 ≤ 23 ∧ 5 ≤ 59) ∧
      (parseTime (3 * msPerDay) 0 (pad2 9 ++ ":" ++ pad2 5)).map formatTime =
        some (pad2 9 ++ ":" ++ pad2 5) :=
  ⟨⟨by decide, by decide⟩,
    parseTime_formatTime_roundtrip 3 0 9 5 (by decide) (by decide)⟩

/-! ## C4: cross-midnight range parsing -/

theorem pad2L_all_nospace {n : Nat} (hn : n < 100) :
    (pad2L n).all (fun c => !isSpaceChar c) = true := by
  simp [pad2L, digitChar_not_space (show n / 10 ≤ 9 by omega),
    digitChar_not_space (show n % 10 ≤ 9 by omega)]

theorem jsTrimList_eq_self_of_all {l : List Char}
    (h : l.all (fun c => !isSpaceChar c) = true) : jsTrimList l = l := by
  apply jsTrimList_eq_self
  intro c hc
  have := List.all_eq_true.mp h c hc
  simpa using this

theorem dueSplit_at_sign (b c d : Char) (rest : List Char) :
    dueSplit ('@' :: b :: c :: d :: rest) = none := by
  rw [show dueSplit ('@' :: b :: c :: d :: rest) =
      (if '@'.toLower = 'd' ∧ b.toLower = 'u' ∧ c.toLower = 'e' ∧ d = ':' ∧ rest ≠ [] then
        some rest else none) from rfl,
    if_neg]
  intro hcontra
  exact absurd hcontra.1 (by decide)

theorem rangeSplitGo_cons {acc : List Char} {c : Char} {rest : List Char}
    (hc : c ≠ '-') : rangeSplitGo acc (c :: rest) = rangeSplitGo (c :: acc) rest := by
  rw [rangeSplitGo, if_neg]
  intro hcontra
  exact absurd hcontra.1 hc

theorem rangeSplitGo_dash {acc rest : List Char} (ha : acc ≠ []) (hr : rest ≠ []) :
    rangeSplitGo acc ('-' :: rest) = some (acc.reverse, rest) := by
  rw [rangeSplitGo, if_pos ⟨rfl, ha, hr⟩]

theorem parseTimeOfList_pad2 {today now : Int} {h m : Nat} (hh : h ≤ 23) (hm : m ≤ 59) :
    parseTimeOfList today now (pad2L h ++ ':' :: pad2L m) = some (mkTimeHM today h m) := by
  rw [parseTimeOfList, jsTrimList_eq_self, parseTimeL_pad2 hh hm]
  intro c hc
  rcases List.mem_append.mp hc with hc1 | hc2
  · exact pad2L_no_space (by omega) c hc1
  · rcases List.mem_cons.mp hc2 with rfl | hc3
    · decide
    · exact pad2L_no_space (by omega) c hc3

theorem rangeSplit_canonical (H1 M1 H2 M2 : Nat) (hH1 : H1 < 100) (hM1 : M1 < 100) :
    rangeSplit ('@' :: digitChar (H1 / 10) :: digitChar (H1 % 10) :: ':' ::
        digitChar (M1 / 10) :: digitChar (M1 % 10) :: '-' ::
        digitChar (H2 / 10) :: digitChar (H2 % 10) :: ':' ::
        digitChar (M2 / 10) :: digitChar (M2 % 10) :: []) =
      some ([digitChar (H1 / 10), digitChar (H1 % 10), ':',
             digitChar (M1 / 10), digitChar (M1 % 10)],
            [digitChar (H2 / 10), digitChar (H2 % 10), ':',
             digitChar (M2 / 10), digitChar (M2 % 10)]) := by
  have e1 : digitChar (H1 / 10) ≠ '-' := digitChar_ne_dash (by omega)
  have e2 : digitChar (H1 % 10) ≠ '-' := digitChar_ne_dash (by omega)
  have e3 : digitChar (M1 / 10) ≠ '-' := digitChar_ne_dash (by omega)
  have e4 : digitChar (M1 % 10) ≠ '-' := digitChar_ne_dash (by omega)
  show rangeSplitGo [] _ = _
  rw [rangeSplitGo_cons e1, rangeSplitGo_cons e2,
    rangeSplitGo_cons (show ':' ≠ '-' by decide), rangeSplitGo_cons e3,
    rangeSplitGo_cons e4, rangeSplitGo_dash (by simp) (by simp)]
  simp

/-- **C4.** For every canonical range token `@HH:mm-HH:mm` in which the parsed
end time-of-day is earlier than the parsed start time-of-day, `parseTaskTime`
places the end on the following calendar day and returns the minutes from the
start to that adjusted end as the duration. -/
theorem parseTaskTime_crossMidnight (today now : Int) (H1 M1 H2 M2 : Nat)
    (hH1 : H1 ≤ 23) (hM1 : M1 ≤ 59) (hH2 : H2 ≤ 23) (hM2 : M2 ≤ 59)
    (hlt : 60 * H2 + M2 < 60 * H1 + M1) :
    parseTaskTime today now (rangeToken H1 M1 H2 M2) =
      some { startTime := some (mkTimeHM today H1 M1),
             endTime := some (mkTimeHM today H2 M2 + msPerDay),
             duration := some (1440 - (60 * H1 + M1 : Int) + (60 * H2 + M2 : Int)),
             dueTime := none } := by
  have hne : ¬ rangeToken H1 M1 H2 M2 = "" := by
    rw [String.ext_iff]
    simp [rangeToken, pad2L]
  have hlist : (rangeToken H1 M1 H2 M2).toList =
      '@' :: digitChar (H1 / 10) :: digitChar (H1 % 10) :: ':' ::
        digitChar (M1 / 10) :: digitChar (M1 % 10) :: '-' ::
        digitChar (H2 / 10) :: digitChar (H2 % 10) :: ':' ::
        digitChar (M2 / 10) :: digitChar (M2 % 10) :: [] := by
    simp [rangeToken, String.toList, pad2L]
  have htrim : jsTrimList ('@' :: digitChar (H1 / 10) :: digitChar (H1 % 10) :: ':' ::
      digitChar (M1 / 10) :: digitChar (M1 % 10) :: '-' ::
      digitChar (H2 / 10) :: digitChar (H2 % 10) :: ':' ::
      digitChar (M2 / 10) :: digitChar (M2 % 10) :: []) =
      '@' :: digitChar (H1 / 10) :: digitChar (H1 % 10) :: ':' ::
      digitChar (M1 / 10) :: digitChar (M1 % 10) :: '-' ::
      digitChar (H2 / 10) :: digitChar (H2 % 10) :: ':' ::
      digitChar (M2 / 10) :: digitChar (M2 % 10) :: [] := by
    apply jsTrimList_eq_self
    simp only [List.forall_mem_cons, List.forall_mem_nil]
    refine ⟨by decide, digitChar_not_space (by omega), digitChar_not_space (by omega),
      by decide, digitChar_not_space (by omega), digitChar_not_space (by omega),
      by decide, digitChar_not_space (by omega), digitChar_not_space (by omega),
      by decide, digitChar_not_space (by omega), digitChar_not_space (by omega), by simp⟩
  have hdue : dueSplit ('@' :: digitChar (H1 / 10) :: digitChar (H1 % 10) :: ':' ::
      digitChar (M1 / 10) :: digitChar (M1 % 10) :: '-' ::
      digitChar (H2 / 10) :: digitChar (H2 % 10) :: ':' ::
      digitChar (M2 / 10) :: digitChar (M2 % 10) :: []) = none :=
    dueSplit_at_sign _ _ _ _
  have hrange := rangeSplit_canonical H1 M1 H2 M2 (by omega) (by omega)
  have hp1 : parseTimeOfList today now
      [digitChar (H1 / 10), digitChar (H1 % 10), ':',
       digitChar (M1 / 10), digitChar (M1 % 10)] =
      some (mkTimeHM today H1 M1) := parseTimeOfList_pad2 hH1 hM1
  have hp2 : parseTimeOfList today now
      [digitChar (H2 / 10), digitChar (H2 % 10), ':',
       digitChar (M2 / 10), digitChar (M2 % 10)] =
      some (mkTimeHM today H2 M2) := parseTimeOfList_pad2 hH2 hM2
  have hcmp : mkTimeHM today H2 M2 < mkTimeHM today H1 M1 := by
    simp only [mkTimeHM, msPerHour, msPerMin]
    omega
  have hdur : (mkTimeHM today H2 M2 + msPerDay - mkTimeHM today H1 M1) / msPerMin =
      1440 - (60 * H1 + M1 : Int) + (60 * H2 + M2 : Int) := by
    simp only [mkTimeHM, msPerDay, msPerHour, msPerMin]
    omega
  unfold parseTaskTime
  rw [if_neg hne, hlist, htrim]
  simp only [hdue, hrange, hp1, hp2, if_pos hcmp]
  rw [hdur]

/-- **C4 witness**: `"@22:00-01:00"` yields an end on the next day and
a duration of 180 minutes. -/
theorem parseTaskTime_crossMidnight_witness :
    (22 ≤ 23 ∧ 0 ≤ 59 ∧ 1 ≤ 23 ∧ 0 ≤ 59 ∧ 60 * 1 + 0 < 60 * 22 + 0) ∧
      parseTaskTime 0 0 (rangeToken 22 0 1 0) =
        some { startTime := some (mkTimeHM 0 22 0),
               endTime := some (mkTimeHM 0 1 0 + msPerDay),
               duration := some (1440 - (60 * 22 + 0 : Int) + (60 * 1 + 0 : Int)),
               dueTime := none } :=
  ⟨by decide,
    parseTaskTime_crossMidnight 0 0 22 0 1 0 (by decide) (by decide) (by decide) (by decide)
      (by decide)⟩

/-! ## C5: null (never throw) on unmatched or out-of-range tokens -/

theorem isSome_false_eq_none {α : Type} (o : Option α) (h : o.isSome = false) : o = none := by
  cases o <;> simp_all

theorem parseTimeL_none_of_no_shape (today now : Int) (l : List Char)
    (hshape : parseTimeShape l = false) : parseTimeL today now l = none := by
  rw [parseTimeShape] at hshape
  simp only [Bool.or_eq_false_iff] at hshape
  obtain ⟨⟨⟨⟨⟨h24, h12⟩, hcn⟩, hcns⟩, hre⟩, hrc⟩ := hshape
  simp only [parseTimeL, parseChineseTime, parseRelativeTime,
    isSome_false_eq_none _ h24, isSome_false_eq_none _ h12, isSome_false_eq_none _ hcn,
    isSome_false_eq_none _ hcns, isSome_false_eq_none _ hre, isSome_false_eq_none _ hrc]

/-- **C5.** `parseTime` and `parseTaskTime` are total functions into `Option`
(they cannot throw), and return `null` whenever the token matches no grammar
rule in shape, or matches the `HH:mm` shape with an hour outside `[0,23]` or
a minute outside `[0,59]`; in particular `"25:99"`, `"@banana"` and `""` all
parse to `null`. -/
theorem parse_null_on_invalid (today now : Int) (s : String) :
    (parseTimeShape (jsTrimList s.toList) = false → parseTime today now s = none) ∧
    (∀ h m, match24 (jsTrimList s.toList) = some (h, m) → 23 < h ∨ 59 < m →
      parseTime today now s = none) ∧
    parseTime today now "25:99" = none ∧
    parseTaskTime today now "25:99" = none ∧
    parseTaskTime today now "@banana" = none ∧
    parseTime today now "" = none ∧
    parseTaskTime today now "" = none := by
  refine ⟨?_, ?_, rfl, rfl, rfl, rfl, rfl⟩
  · intro hshape
    rw [parseTime]
    by_cases hs : s = ""
    · rw [if_pos hs]
    · rw [if_neg hs]
      exact parseTimeL_none_of_no_shape today now _ hshape
  · intro h m h24 hout
    by_cases hs : s = ""
    · rw [hs] at h24
      simp [jsTrimList, match24] at h24
    · rw [parseTime, if_neg hs]
      simp only [parseTimeL, h24]
      rw [createTimeFromHourMinute, if_pos (by omega)]

/-- **C5 witness**: the no-shape case at `"@@"` and the out-of-range case at
`"25:99"`. -/
theorem parse_null_on_invalid_witness :
    parseTime 5 7 "@@" = none ∧ parseTime 5 7 "25:99" = none :=
  ⟨(parse_null_on_invalid 5 7 "@@").1 (by decide),
   (parse_null_on_invalid 5 7 "25:99").2.1 25 99 (by decide) (by decide)⟩

/-! ## C3: current-time indicator range -/

/-- **C3 (amended).** For every non-empty tick list and every instant, the
current-time position computation reports out-of-range exactly when the
instant falls outside `[ticks.first − 30min, ticks.last + 30min]` — the
source adds no `intervalMinutes` term to the upper bound. -/
theorem calculateTimePosition_none_iff (I : Nat) (now : Int) (slots : List Int)
    (h : slots ≠ []) :
    calculateTimePosition I now slots = none ↔
      (now < slots.head h - 30 * msPerMin ∨ slots.getLast h + 30 * msPerMin < now) := by
  match slots with
  | [] => exact absurd rfl h
  | first :: rest =>
    rw [calculateTimePosition]
    simp only [List.head_cons]
    by_cases hc : now < first - 30 * msPerMin ∨
        (first :: rest).getLast (by simp) + 30 * msPerMin < now
    · rw [if_pos hc]
      simpa using hc
    · rw [if_neg hc]
      constructor
      · intro hsome
        exact absurd hsome (by simp)
      · intro hcontra
        exact absurd hcontra hc

/-- **C3 witness**: a single tick at 0, `now` ten hours later, out of range. -/
theorem calculateTimePosition_none_iff_witness :
    calculateTimePosition 30 (10 * msPerHour) [0] = none :=
  (calculateTimePosition_none_iff 30 (10 * msPerHour) [0] (by decide)).mpr (by decide)

/-- **C3 counterexample** to the claim as stated: with one tick at 0 and
`intervalMinutes = 30`, the instant 45 minutes is inside the claimed window
`[first − 30min, last + intervalMinutes + 30min]`, yet the computation
reports out-of-range. -/
theorem calculateTimePosition_claim_counterexample :
    calculateTimePosition 30 (45 * msPerMin) [0] = none ∧
      ¬ ((45 * msPerMin : Int) < 0 - 30 * msPerMin ∨
          (0 : Int) + (30 + 30) * msPerMin < 45 * msPerMin) :=
  ⟨by decide, by decide⟩

/-! ## C7: the 2-hour merge threshold -/

theorem maxEnd_append_single {l : List TimeRange} (x : TimeRange) (hl : l ≠ []) :
    maxEnd (l ++ [x]) = max (maxEnd l) x.«end» := by
  match l with
  | [] => exact absurd rfl hl
  | r :: rest =>
    show runMax r.«end» (rest ++ [x]) = max (runMax r.«end» rest) x.«end»
    rw [runMax, List.foldl_append]
    rfl

theorem reverse_cons_ne_nil {α : Type} {acc : List α} (h : acc ≠ []) :
    acc.reverse ≠ [] := by
  simpa using h

theorem head?_append_left {α : Type} {l l₂ : List α} (h : l ≠ []) :
    (l ++ l₂).head? = l.head? := by
  match l with
  | [] => exact absurd rfl h
  | a :: rest => rfl

theorem mergeLoop_eq_clusters :
    ∀ (rest acc : List TimeRange) (e : Int), acc ≠ [] → maxEnd acc.reverse = e →
      mergeLoop ⟨(acc.reverse.head?.getD ⟨0, 0⟩).start, e⟩ rest =
        (clustersFrom acc e rest).map summarize := by
  intro rest
  induction rest with
  | nil =>
    intro acc e hacc he
    simp only [mergeLoop, clustersFrom, List.map, summarize]
    rw [he]
  | cons cur rest ih =>
    intro acc e hacc he
    rw [mergeLoop, clustersFrom]
    by_cases hcur : cur.start ≤ e + bufferMs
    · rw [if_pos hcur, if_pos hcur]
      have hrev : (cur :: acc).reverse = acc.reverse ++ [cur] := by simp
      have hmax : maxEnd (cur :: acc).reverse = max e cur.«end» := by
        rw [hrev, maxEnd_append_single cur (reverse_cons_ne_nil hacc), he]
      have hhead : ((cur :: acc).reverse.head?.getD ⟨0, 0⟩).start =
          (acc.reverse.head?.getD ⟨0, 0⟩).start := by
        rw [hrev, head?_append_left (reverse_cons_ne_nil hacc)]
      have := ih (cur :: acc) (max e cur.«end») (by simp) hmax
      rw [hhead] at this
      exact this
    · rw [if_neg hcur, if_neg hcur]
      have htail := ih [cur] cur.«end» (by simp) (by simp [maxEnd, runMax])
      simp only [List.reverse_singleton, List.head?_cons, Option.getD_some] at htail
      rw [List.map_cons]
      have hsum : summarize acc.reverse =
          ⟨(acc.reverse.head?.getD ⟨0, 0⟩).start, e⟩ := by
        rw [summarize, he]
      rw [hsum]
      congr 1

theorem clustersFrom_flatten :
    ∀ (rest acc : List TimeRange) (e : Int),
      (clustersFrom acc e rest).flatten = acc.reverse ++ rest := by
  intro rest
  induction rest with
  | nil => intro acc e; simp [clustersFrom]
  | cons cur rest ih =>
    intro acc e
    rw [clustersFrom]
    by_cases hcur : cur.start ≤ e + bufferMs
    · rw [if_pos hcur, ih]
      simp
    · rw [if_neg hcur]
      simp only [List.flatten_cons, ih]
      simp

theorem clustersFrom_ne_nil :
    ∀ (rest acc : List TimeRange) (e : Int), acc ≠ [] →
      ∀ b ∈ clustersFrom acc e rest, b ≠ [] := by
  intro rest
  induction rest with
  | nil =>
    intro acc e hacc b hb
    simp only [clustersFrom, List.mem_singleton] at hb
    subst hb
    exact reverse_cons_ne_nil hacc
  | cons cur rest ih =>
    intro acc e hacc b hb
    rw [clustersFrom] at hb
    by_cases hcur : cur.start ≤ e + bufferMs
    · rw [if_pos hcur] at hb
      exact ih _ _ (by simp) b hb
    · rw [if_neg hcur] at hb
      rcases List.mem_cons.mp hb with rfl | hb2
      · exact reverse_cons_ne_nil hacc
      · exact ih _ _ (by simp) b hb2

theorem chainedFrom_append :
    ∀ (l : List TimeRange) (e0 : Int) (x : TimeRange),
      chainedFrom e0 (l ++ [x]) ↔ chainedFrom e0 l ∧ x.start ≤ runMax e0 l + bufferMs := by
  intro l
  induction l with
  | nil => intro e0 x; simp [chainedFrom, runMax]
  | cons r rest ih =>
    intro e0 x
    rw [List.cons_append]
    show (r.start ≤ e0 + bufferMs ∧ chainedFrom (max e0 r.«end») (rest ++ [x])) ↔ _
    rw [ih (max e0 r.«end») x]
    show _ ↔ (r.start ≤ e0 + bufferMs ∧ chainedFrom (max e0 r.«end») rest) ∧
      x.start ≤ runMax (max e0 r.«end») rest + bufferMs
    tauto

theorem isCluster_append {b : List TimeRange} {x : TimeRange} (hb : b ≠ [])
    (hcl : isCluster b) (hx : x.start ≤ maxEnd b + bufferMs) :
    isCluster (b ++ [x]) := by
  match b with
  | [] => exact absurd rfl hb
  | r :: rest =>
    show chainedFrom r.«end» (rest ++ [x])
    rw [chainedFrom_append]
    exact ⟨hcl, hx⟩

theorem clustersFrom_isCluster :
    ∀ (rest acc : List TimeRange) (e : Int), acc ≠ [] → isCluster acc.reverse →
      maxEnd acc.reverse = e → ∀ b ∈ clustersFrom acc e rest, isCluster b := by
  intro rest
  induction rest with
  | nil =>
    intro acc e hacc hcl he b hb
    simp only [clustersFrom, List.mem_singleton] at hb
    subst hb
    exact hcl
  | cons cur rest ih =>
    intro acc e hacc hcl he b hb
    rw [clustersFrom] at hb
    by_cases hcur : cur.start ≤ e + bufferMs
    · rw [if_pos hcur] at hb
      refine ih (cur :: acc) (max e cur.«end») (by simp) ?_ ?_ b hb
      · rw [List.reverse_cons]
        exact isCluster_append (reverse_cons_ne_nil hacc) hcl (by rw [he]; exact hcur)
      · rw [List.reverse_cons, maxEnd_append_single cur (reverse_cons_ne_nil hacc), he]
    · rw [if_neg hcur] at hb
      rcases List.mem_cons.mp hb with rfl | hb2
      · exact hcl
      · refine ih [cur] cur.«end» (by simp) ?_ (by simp [maxEnd, runMax]) b hb2
        show chainedFrom cur.«end» []
        trivial

theorem clustersFrom_first :
    ∀ (rest acc : List TimeRange) (e : Int),
      ∃ t1 t2, clustersFrom acc e rest = (acc.reverse ++ t1) :: t2 := by
  intro rest
  induction rest with
  | nil => intro acc e; exact ⟨[], [], by simp [clustersFrom]⟩
  | cons cur rest ih =>
    intro acc e
    rw [clustersFrom]
    by_cases hcur : cur.start ≤ e + bufferMs
    · rw [if_pos hcur]
      obtain ⟨t1, t2, hEq⟩ := ih (cur :: acc) (max e cur.«end»)
      refine ⟨cur :: t1, t2, ?_⟩
      rw [hEq]
      simp
    · rw [if_neg hcur]
      exact ⟨[], clustersFrom [cur] cur.«end» rest, by simp⟩

theorem clustersFrom_chain :
    ∀ (rest acc : List TimeRange) (e : Int), acc ≠ [] → maxEnd acc.reverse = e →
      List.Chain' (fun b1 b2 => maxEnd b1 + bufferMs < (b2.head?.getD ⟨0, 0⟩).start)
        (clustersFrom acc e rest) := by
  intro rest
  induction rest with
  | nil => intro acc e _ _; simp [clustersFrom]
  | cons cur rest ih =>
    intro acc e hacc he
    rw [clustersFrom]
    by_cases hcur : cur.start ≤ e + bufferMs
    · rw [if_pos hcur]
      refine ih (cur :: acc) (max e cur.«end») (by simp) ?_
      rw [List.reverse_cons, maxEnd_append_single cur (reverse_cons_ne_nil hacc), he]
    · rw [if_neg hcur]
      rw [List.chain'_cons']
      refine ⟨?_, ih [cur] cur.«end» (by simp) (by simp [maxEnd, runMax])⟩
      intro b2 hb2
      obtain ⟨t1, t2, hEq⟩ := clustersFrom_first rest [cur] cur.«end»
      rw [hEq] at hb2
      simp only [List.head?_cons, Option.mem_def, Option.some.injEq] at hb2
      subst hb2
      simp only [List.reverse_singleton, List.cons_append, List.head?_cons, Option.getD_some]
      rw [he]
      omega

/-- **C7.** For every list of time ranges sorted by start, `mergeTimeRanges`
partitions it into consecutive clusters: within a cluster each subsequent
range starts at most 2 hours after the running maximum end (`isCluster`),
across a boundary the next cluster starts strictly more than 2 hours after
the previous cluster's maximum end, and each emitted window carries the
cluster's first start and its maximum end. -/
theorem mergeTimeRanges_cluster_spec (rs : List TimeRange)
    (hsorted : rs.Pairwise (fun a b => a.start ≤ b.start)) :
    mergeTimeRanges rs = (clusters rs).map summarize ∧
    (clusters rs).flatten = rs ∧
    (∀ b ∈ clusters rs, b ≠ [] ∧ isCluster b) ∧
    List.Chain' (fun b1 b2 => maxEnd b1 + bufferMs < (b2.head?.getD ⟨0, 0⟩).start)
      (clusters rs) := by
  have hid : rs.mergeSort rangeLe = rs := by
    apply List.mergeSort_of_sorted
    refine hsorted.imp ?_
    intro a b hab
    simpa [rangeLe] using hab
  match rs with
  | [] =>
    refine ⟨?_, by simp [clusters], by simp [clusters], by simp [clusters]⟩
    rw [mergeTimeRanges, hid]
    simp [clusters]
  | r :: rest =>
    have hmain := mergeLoop_eq_clusters rest [r] r.«end» (by simp) (by simp [maxEnd, runMax])
    simp only [List.reverse_singleton, List.head?_cons, Option.getD_some] at hmain
    refine ⟨?_, ?_, ?_, ?_⟩
    · rw [mergeTimeRanges, hid]
      exact hmain
    · show (clustersFrom [r] r.«end» rest).flatten = r :: rest
      rw [clustersFrom_flatten]
      simp
    · intro b hb
      exact ⟨clustersFrom_ne_nil rest [r] r.«end» (by simp) b hb,
        clustersFrom_isCluster rest [r] r.«end» (by simp)
          (by show chainedFrom r.«end» []; trivial) (by simp [maxEnd, runMax]) b hb⟩
    · exact clustersFrom_chain rest [r] r.«end» (by simp) (by simp [maxEnd, runMax])

/-- **C7 witness**: three ranges, a 1-hour gap merges, a 5-hour gap splits. -/
theorem mergeTimeRanges_cluster_spec_witness :
    mergeTimeRanges [⟨0, 3600000⟩, ⟨2 * 3600000, 3 * 3600000⟩,
        ⟨8 * 3600000, 9 * 3600000⟩] =
      (clusters [⟨0, 3600000⟩, ⟨2 * 3600000, 3 * 3600000⟩,
        ⟨8 * 3600000, 9 * 3600000⟩]).map summarize :=
  (mergeTimeRanges_cluster_spec _
    (by constructor
        · intro b hb
          rcases List.mem_cons.mp hb with rfl | hb2
          · decide
          · rcases List.mem_cons.mp hb2 with rfl | hb3
            · decide
            · simp at hb3
        · constructor
          · intro b hb
            rcases List.mem_cons.mp hb with rfl | hb2
            · decide
            · simp at hb2
          · simp)).1

/-! ## C8: drag quantization -/

/-- **C8.** For every instant and every positive `intervalMinutes` dividing 60,
`roundToInterval` returns the instant moved to the nearest multiple of
`intervalMinutes` on the minutes-of-hour (seconds and milliseconds cleared),
an exact halfway tie rounding up to the later grid point.  `r` is the new
minute-of-hour: a multiple of `I`, at minimal distance from the old
minute-of-hour among all multiples of `I`, and the largest such in case of a
tie. -/
theorem roundToInterval_nearest (t : Int) (I : Nat) (hI : 0 < I) (hdvd : I ∣ 60) :
    ∃ r : Nat, roundToInterval t I = some (floorToHour t + (r : Int) * msPerMin) ∧
      (I : Int) ∣ (r : Int) ∧
      (∀ y : Int, (I : Int) ∣ y →
        ((r : Int) - (getMinutesN t : Int)).natAbs ≤ (y - (getMinutesN t : Int)).natAbs) ∧
      (∀ y : Int, (I : Int) ∣ y →
        (y - (getMinutesN t : Int)).natAbs = ((r : Int) - (getMinutesN t : Int)).natAbs →
          y ≤ (r : Int)) := by
  have hnearest : ∀ y : Int, (I : Int) ∣ y →
      ((((2 * getMinutesN t + I) / (2 * I) * I : Nat) : Int) - (getMinutesN t : Int)).natAbs ≤
        (y - (getMinutesN t : Int)).natAbs ∧
      ((y - (getMinutesN t : Int)).natAbs =
          ((((2 * getMinutesN t + I) / (2 * I) * I : Nat) : Int) -
            (getMinutesN t : Int)).natAbs →
        y ≤ (((2 * getMinutesN t + I) / (2 * I) * I : Nat) : Int)) := by
    intro y hy
    set m := getMinutesN t with hmdef
    set q := (2 * m + I) / (2 * I) with hqdef
    have hdm : 2 * I * q + (2 * m + I) % (2 * I) = 2 * m + I := Nat.div_add_mod _ _
    have hmod : (2 * m + I) % (2 * I) < 2 * I := Nat.mod_lt _ (by omega)
    set rr := (2 * m + I) % (2 * I) with hrrdef
    have hdmZ : 2 * (I : Int) * (q : Int) + (rr : Int) = 2 * (m : Int) + I := by
      exact_mod_cast hdm
    have hR : 2 * ((m : Int) - ((q * I : Nat) : Int)) = (rr : Int) - I := by
      push_cast
      linarith [hdmZ]
    by_cases hyR : y = ((q * I : Nat) : Int)
    · subst hyR; exact ⟨le_refl _, fun _ => le_refl _⟩
    · have hdvdyR : (I : Int) ∣ (y - ((q * I : Nat) : Int)) :=
        dvd_sub hy ⟨(q : Int), by push_cast; ring⟩
      have hne0 : y - ((q * I : Nat) : Int) ≠ 0 := sub_ne_zero_of_ne hyR
      have h2 : I ∣ (y - ((q * I : Nat) : Int)).natAbs := by
        have := Int.natAbs_dvd_natAbs.mpr hdvdyR
        simpa using this
      have habs : (I : Int) ≤ ((y - ((q * I : Nat) : Int)).natAbs : Int) :=
        Int.le_of_dvd (by omega) (Int.natCast_dvd_natCast.mpr h2)
      constructor
      · omega
      · intro heq; omega
  refine ⟨(2 * getMinutesN t + I) / (2 * I) * I, ?_,
    ⟨((2 * getMinutesN t + I) / (2 * I) : Int), by push_cast; ring⟩,
    fun y hy => (hnearest y hy).1, fun y hy => (hnearest y hy).2⟩
  rw [roundToInterval, if_neg (show ¬ I = 0 by omega)]

/-- **C8 witness** at `t =` 9:45:30.250 and `I = 30`. -/
theorem roundToInterval_nearest_witness :
    0 < 30 ∧ 30 ∣ 60 ∧
      ∃ r : Nat,
        roundToInterval (9 * msPerHour + 45 * msPerMin + 30250) 30 =
          some (floorToHour (9 * msPerHour + 45 * msPerMin + 30250) + (r : Int) * msPerMin) ∧
        (30 : Int) ∣ (r : Int) ∧
        (∀ y : Int, (30 : Int) ∣ y →
          ((r : Int) - (getMinutesN (9 * msPerHour + 45 * msPerMin + 30250) : Int)).natAbs ≤
            (y - (getMinutesN (9 * msPerHour + 45 * msPerMin + 30250) : Int)).natAbs) ∧
        (∀ y : Int, (30 : Int) ∣ y →
          (y - (getMinutesN (9 * msPerHour + 45 * msPerMin + 30250) : Int)).natAbs =
            ((r : Int) - (getMinutesN (9 * msPerHour + 45 * msPerMin + 30250) : Int)).natAbs →
            y ≤ (r : Int)) :=
  ⟨by decide, by decide,
    roundToInterval_nearest (9 * msPerHour + 45 * msPerMin + 30250) 30 (by decide) (by decide)⟩

/-! ## C9: replacing the last time marker -/

theorem getHoursN_lt (t : Int) : getHoursN t < 24 := by
  simp only [getHoursN, msPerHour]
  omega

theorem getMinutesN_lt (t : Int) : getMinutesN t < 60 := by
  simp only [getMinutesN, msPerMin]
  omega

theorem formatTime_toList (t : Int) :
    (formatTime t).toList = pad2L (getHoursN t) ++ ':' :: pad2L (getMinutesN t) := by
  rw [formatTime, padStart2_repr (lt_trans (getHoursN_lt t) (by norm_num)),
    padStart2_repr (lt_trans (getMinutesN_lt t) (by norm_num))]
  rfl

theorem matchMarker_newTimeToken (dur : Option Int) (t : Int) (tail : List Char) :
    matchMarker (newTimeToken dur t ++ tail) ≠ none := by
  have d1 := digitChar_isDigit (show getHoursN t / 10 ≤ 9 by
    have := getHoursN_lt t; omega)
  have d2 := digitChar_isDigit (show getHoursN t % 10 ≤ 9 by omega)
  have d3 := digitChar_isDigit (show getMinutesN t / 10 ≤ 9 by
    have := getMinutesN_lt t; omega)
  have d4 := digitChar_isDigit (show getMinutesN t % 10 ≤ 9 by omega)
  have hshape : newTimeToken dur t ++ tail =
      '@' :: digitChar (getHoursN t / 10) :: digitChar (getHoursN t % 10) :: ':' ::
        digitChar (getMinutesN t / 10) :: digitChar (getMinutesN t % 10) ::
        (durationSuffix dur ++ tail) := by
    rw [newTimeToken, formatTime_toList]
    simp [pad2L]
  rw [hshape]
  simp [matchMarker, matchHM, d1, d2, d3, d4]

theorem scanMarkersF_eq_nil :
    ∀ (l : List Char) (fuel : Nat), l.length ≤ fuel → scanMarkersF fuel l = [] →
      ∀ i, matchMarker (l.drop i) = none := by
  intro l
  induction l with
  | nil =>
    intro fuel hf hs i
    rw [List.drop_nil]
    rfl
  | cons c rest ih =>
    intro fuel hf hs i
    cases fuel with
    | zero => simp at hf
    | succ f =>
      have hs' := hs
      rw [scanMarkersF] at hs'
      cases hm : matchMarker (c :: rest) with
      | some p =>
        rw [hm] at hs'
        simp at hs'
      | none =>
        rw [hm] at hs'
        match i with
        | 0 => exact hm
        | i + 1 =>
          rw [List.drop_succ_cons]
          exact ih f (by simp at hf; omega) hs' i

theorem occursAtB_drop {pat l : List Char} {i : Nat} (h : occursAtB pat l i = true) :
    l.drop i = pat ++ l.drop (i + pat.length) := by
  rw [occursAtB, decide_eq_true_eq] at h
  obtain ⟨htake, hlen⟩ := h
  conv_lhs => rw [← List.take_append_drop pat.length (l.drop i)]
  rw [htake, List.drop_drop, Nat.add_comm]

theorem occursAtB_append_left {m r : List Char} {j : Nat} (pre : List Char)
    (h : occursAtB m r j = true) : occursAtB m (pre ++ r) (pre.length + j) = true := by
  rw [occursAtB, decide_eq_true_eq] at h ⊢
  obtain ⟨h1, h2⟩ := h
  have hd : (pre ++ r).drop (pre.length + j) = r.drop j := by
    rw [List.drop_append_eq_append_drop, List.drop_eq_nil_of_le (by omega)]
    simp
  refine ⟨by rw [hd]; exact h1, ?_⟩
  rw [List.length_append]
  omega

theorem occursAtB_false_of_gt {pat l : List Char} {k : Nat} (hk : l.length < k) :
    occursAtB pat l k = false := by
  rw [occursAtB, decide_eq_false_iff_not]
  rintro ⟨-, h2⟩
  omega

theorem includesB_true_of_occurs {pat u : List Char} {p : Nat}
    (h : occursAtB pat u p = true) : includesB pat u = true := by
  rw [includesB, List.any_eq_true]
  refine ⟨p, List.mem_range.mpr ?_, h⟩
  rw [occursAtB, decide_eq_true_eq] at h
  omega

theorem includesB_false_of_no_marker {l : List Char}
    (hall : ∀ i, matchMarker (l.drop i) = none) (dur : Option Int) (t : Int) :
    includesB (newTimeToken dur t) l = false := by
  by_contra hc
  rw [Bool.not_eq_false, includesB, List.any_eq_true] at hc
  obtain ⟨i, _, hocc⟩ := hc
  have hdrop := occursAtB_drop hocc
  exact matchMarker_newTimeToken dur t (l.drop (i + (newTimeToken dur t).length))
    (by rw [← hdrop]; exact hall i)

theorem scanMarkersF_occurs :
    ∀ (fuel : Nat) (l m : List Char), m ∈ scanMarkersF fuel l →
      ∃ i, occursAtB m l i = true := by
  intro fuel
  induction fuel with
  | zero =>
    intro l m hm
    simp [scanMarkersF] at hm
  | succ f ih =>
    intro l m hm
    match l with
    | [] => simp [scanMarkersF] at hm
    | c :: rest =>
      have hm' := hm
      rw [scanMarkersF] at hm'
      cases hmm : matchMarker (c :: rest) with
      | some p =>
        rw [hmm] at hm'
        obtain ⟨happ, hpos⟩ := matchMarker_append hmm
        rcases List.mem_cons.mp hm' with rfl | hm2
        · refine ⟨0, ?_⟩
          rw [occursAtB, decide_eq_true_eq]
          constructor
          · rw [List.drop_zero, ← happ, List.take_left]
          · rw [← happ, List.length_append]
            omega
        · obtain ⟨j, hj⟩ := ih p.2 m hm2
          refine ⟨p.1.length + j, ?_⟩
          have := occursAtB_append_left p.1 hj
          rwa [happ] at this
      | none =>
        rw [hmm] at hm'
        obtain ⟨j, hj⟩ := ih rest m hm'
        refine ⟨1 + j, ?_⟩
        have := occursAtB_append_left [c] hj
        simpa using this

theorem lastIndexOfGo_spec (pat l : List Char) :
    ∀ n i, lastIndexOfGo pat l n = some i →
      occursAtB pat l i = true ∧ i ≤ n ∧
        ∀ k, i < k → k ≤ n → occursAtB pat l k = false := by
  intro n
  induction n with
  | zero =>
    intro i h
    simp only [lastIndexOfGo] at h
    split_ifs at h with hc
    · obtain rfl : (0 : Nat) = i := Option.some.inj h
      exact ⟨hc, le_refl _, fun k hk1 hk2 => by omega⟩
  | succ n ih =>
    intro i h
    simp only [lastIndexOfGo] at h
    split_ifs at h with hc
    · obtain rfl : n + 1 = i := Option.some.inj h
      exact ⟨hc, le_refl _, fun k hk1 hk2 => by omega⟩
    · obtain ⟨h1, h2, h3⟩ := ih i h
      refine ⟨h1, by omega, fun k hk1 hk2 => ?_⟩
      rcases Nat.lt_or_ge k (n + 1) with hk3 | hk3
      · exact h3 k hk1 (by omega)
      · have hke : k = n + 1 := by omega
        subst hke
        simpa using hc

theorem lastIndexOfGo_exists (pat l : List Char) :
    ∀ n j, j ≤ n → occursAtB pat l j = true →
      ∃ i, lastIndexOfGo pat l n = some i := by
  intro n
  induction n with
  | zero =>
    intro j hj hocc
    obtain rfl : j = 0 := by omega
    exact ⟨0, by simp only [lastIndexOfGo]; rw [if_pos hocc]⟩
  | succ n ih =>
    intro j hj hocc
    by_cases hc : occursAtB pat l (n + 1) = true
    · exact ⟨n + 1, by simp only [lastIndexOfGo]; rw [if_pos hc]⟩
    · rcases Nat.lt_or_ge j (n + 1) with hj2 | hj2
      · obtain ⟨i, hi⟩ := ih j (by omega) hocc
        exact ⟨i, by simp only [lastIndexOfGo]; rw [if_neg hc]; exact hi⟩
      · have hje : j = n + 1 := by omega
        subst hje
        exact absurd hocc hc

theorem generateUpdatedTaskLine_of_no_marker {data : DragEventData} {t : Int}
    (hscan : scanMarkers data.originalLine.toList = [])
    (hinc : includesB (newTimeToken data.duration t) data.originalLine.toList = false) :
    generateUpdatedTaskLine data t =
      ⟨data.originalLine.toList ++ ' ' :: newTimeToken data.duration t⟩ := by
  simp only [generateUpdatedTaskLine]
  rw [hscan]
  show (⟨if includesB (newTimeToken data.duration t) data.originalLine.toList = false ∧
      data.originalLine.toList = data.originalLine.toList then
      data.originalLine.toList ++ ' ' :: newTimeToken data.duration t
    else data.originalLine.toList⟩ : String) =
    ⟨data.originalLine.toList ++ ' ' :: newTimeToken data.duration t⟩
  rw [if_pos ⟨hinc, rfl⟩]

theorem generateUpdatedTaskLine_of_marker {data : DragEventData} {t : Int} {L : List Char}
    {i : Nat} (hlast : (scanMarkers data.originalLine.toList).getLast? = some L)
    (hfind : lastIndexOf L data.originalLine.toList = some i)
    (hinc : includesB (newTimeToken data.duration t)
      (data.originalLine.toList.take i ++ newTimeToken data.duration t ++
        data.originalLine.toList.drop (i + L.length)) = true) :
    generateUpdatedTaskLine data t =
      ⟨data.originalLine.toList.take i ++ newTimeToken data.duration t ++
        data.originalLine.toList.drop (i + L.length)⟩ := by
  simp only [generateUpdatedTaskLine]
  rw [hlast]
  simp only [hfind]
  rw [if_neg (by rintro ⟨h1, -⟩; rw [hinc] at h1; cases h1)]

/-- **C9.** `generateUpdatedTaskLine` splices the rebuilt token — `@HH:mm`
plus the task's duration rendered as a `+Nh`/`+Nmin` suffix when present —
over the last occurrence of the last time-marker-shaped substring of the
original line; when the line holds no such substring (the marker pattern
matches at no position), the rebuilt token is appended at the end of the
line after a space. -/
theorem generateUpdatedTaskLine_spec (data : DragEventData) (t : Int) :
    (scanMarkers data.originalLine.toList = [] →
      (∀ i, matchMarker (data.originalLine.toList.drop i) = none) ∧
      generateUpdatedTaskLine data t =
        ⟨data.originalLine.toList ++ ' ' :: newTimeToken data.duration t⟩) ∧
    (∀ L, (scanMarkers data.originalLine.toList).getLast? = some L →
      ∃ i, occursAtB L data.originalLine.toList i = true ∧
        (∀ k, i < k → occursAtB L data.originalLine.toList k = false) ∧
        generateUpdatedTaskLine data t =
          ⟨data.originalLine.toList.take i ++ newTimeToken data.duration t ++
            data.originalLine.toList.drop (i + L.length)⟩) := by
  constructor
  · intro hscan
    have hscan' : scanMarkersF data.originalLine.toList.length
        data.originalLine.toList = [] := hscan
    have hall : ∀ j, matchMarker (data.originalLine.toList.drop j) = none :=
      scanMarkersF_eq_nil data.originalLine.toList data.originalLine.toList.length
        (le_refl _) hscan'
    exact ⟨hall, generateUpdatedTaskLine_of_no_marker hscan
      (includesB_false_of_no_marker hall data.duration t)⟩
  · intro L hlast
    have hLmem : L ∈ scanMarkersF data.originalLine.toList.length
        data.originalLine.toList :=
      List.mem_of_mem_getLast? (Option.mem_def.mpr hlast)
    obtain ⟨j, hj⟩ := scanMarkersF_occurs data.originalLine.toList.length
      data.originalLine.toList L hLmem
    have hjle : j ≤ data.originalLine.toList.length := by
      rw [occursAtB, decide_eq_true_eq] at hj
      omega
    obtain ⟨i, hfind⟩ := lastIndexOfGo_exists L data.originalLine.toList
      data.originalLine.toList.length j hjle hj
    obtain ⟨hocc, hile, hmax⟩ := lastIndexOfGo_spec L data.originalLine.toList
      data.originalLine.toList.length i hfind
    have h0 : occursAtB (newTimeToken data.duration t)
        (newTimeToken data.duration t ++ data.originalLine.toList.drop (i + L.length))
        0 = true := by
      rw [occursAtB, decide_eq_true_eq]
      refine ⟨?_, by simp⟩
      rw [List.drop_zero, List.take_left]
    have hoccU := occursAtB_append_left (data.originalLine.toList.take i) h0
    have hincU : includesB (newTimeToken data.duration t)
        (data.originalLine.toList.take i ++ newTimeToken data.duration t ++
          data.originalLine.toList.drop (i + L.length)) = true := by
      rw [List.append_assoc]
      exact includesB_true_of_occurs (by simpa using hoccU)
    refine ⟨i, hocc, ?_, generateUpdatedTaskLine_of_marker hlast hfind hincU⟩
    intro k hk
    rcases le_or_lt k data.originalLine.toList.length with hk2 | hk2
    · exact hmax k hk hk2
    · exact occursAtB_false_of_gt hk2

/-- **C9 witness**: a line with one time marker has it replaced in place at
its last occurrence, and a marker-free line gets the token appended. -/
theorem generateUpdatedTaskLine_spec_witness :
    ((scanMarkers dragData.originalLine.toList).getLast? =
        some ("@09:00+30min".toList) ∧
      (∃ i, occursAtB ("@09:00+30min".toList) dragData.originalLine.toList i = true ∧
        (∀ k, i < k →
          occursAtB ("@09:00+30min".toList) dragData.originalLine.toList k = false) ∧
        generateUpdatedTaskLine dragData 37800000 =
          ⟨dragData.originalLine.toList.take i ++
            newTimeToken dragData.duration 37800000 ++
            dragData.originalLine.toList.drop (i + ("@09:00+30min".toList).length)⟩)) ∧
    (scanMarkers noMarkData.originalLine.toList = [] ∧
      generateUpdatedTaskLine noMarkData 37800000 =
        ⟨noMarkData.originalLine.toList ++ ' ' ::
          newTimeToken noMarkData.duration 37800000⟩) :=
  ⟨⟨by decide, (generateUpdatedTaskLine_spec dragData 37800000).2
      ("@09:00+30min".toList) (by decide)⟩,
    ⟨by decide, ((generateUpdatedTaskLine_spec noMarkData 37800000).1 (by decide)).2⟩⟩

end GTDSpec
